import Mathlib

/-!
A shallow embedding of the core of `src/src/types.rs` of the rust-sourcemap
repository, together with models of the collaborating modules (`builder.rs`,
`utils.rs`, `decoder.rs`) that are referenced from `types.rs` but are not part
of the provided sources; those models are written from the specification and
are marked `Modelled from the spec:` in their doc comments.

Machine integers are modelled as `Nat`.  `u32` subtraction that can underflow
is modelled explicitly (see `SourceMapIndex.lookup_token`), `u32` addition that
can overflow wraps modulo `2 ^ 32` (see `SourceMapIndex.flatten`), and the
`!0` sentinel values are the all-ones constants `SENTINEL` (`u32`) and
`USIZE_SENTINEL` (`usize`).
-/

/-- The all-ones 32-bit value `!0` used by the code as "no source" / "no name". -/
def SENTINEL : Nat := 4294967295

/-- `2 ^ 32`, the modulus of `u32` arithmetic. -/
def U32MOD : Nat := 4294967296

/-- The all-ones `usize` value `!0` used as a cache sentinel in the reverse
token iterator (64-bit target). -/
def USIZE_SENTINEL : Nat := 18446744073709551615

/-- Rust `char::len_utf16`: 1 for BMP scalars, 2 for scalars needing a
surrogate pair. -/
def utf16Size (c : Char) : Nat := if c.toNat < 65536 then 1 else 2

/-- Total UTF-8 byte length of a character list (Rust `str::len`). -/
def utf8Total (cs : List Char) : Nat := (cs.map Char.utf8Size).sum

/-- Total UTF-16 code-unit length of a character list. -/
def utf16Total (cs : List Char) : Nat := (cs.map utf16Size).sum

/-- Rust tuple order on generated positions: `(line, col) < (l, c)`
lexicographically. -/
def posLt (a b : Nat × Nat) : Prop := a.1 < b.1 ∨ (a.1 = b.1 ∧ a.2 < b.2)

/-- Lexicographic `≤` on generated positions. -/
def posLe (a b : Nat × Nat) : Prop := a.1 < b.1 ∨ (a.1 = b.1 ∧ a.2 ≤ b.2)

/-- Rust tuple order `≤` on the `(dst_line, dst_col, token_idx)` index
entries. -/
def tripleLe (a b : Nat × Nat × Nat) : Prop :=
  a.1 < b.1 ∨ (a.1 = b.1 ∧ (a.2.1 < b.2.1 ∨ (a.2.1 = b.2.1 ∧ a.2.2 ≤ b.2.2)))

instance : DecidableRel posLt := fun a b => by unfold posLt; infer_instance

instance : DecidableRel posLe := fun a b => by unfold posLe; infer_instance

instance : DecidableRel tripleLe := fun a b => by unfold tripleLe; infer_instance

instance : IsTotal (Nat × Nat × Nat) tripleLe :=
  ⟨fun a b => by unfold tripleLe; omega⟩

instance : IsTrans (Nat × Nat × Nat) tripleLe :=
  ⟨fun a b c hab hbc => by unfold tripleLe at *; omega⟩

/-- `RawToken` of `types.rs`: six `u32` fields. -/
structure RawToken where
  dst_line : Nat
  dst_col : Nat
  src_line : Nat
  src_col : Nat
  src_id : Nat
  name_id : Nat
deriving Repr, DecidableEq

/-- `SourceMap` of `types.rs`. -/
structure SourceMap where
  file : Option String
  tokens : List RawToken
  index : List (Nat × Nat × Nat)
  names : List String
  sources : List String
  sources_content : List (Option String)
deriving Repr, DecidableEq

/-- `SourceMap::new`: constructs the map and computes the sorted lookup index.
Rust's `Vec::sort` is a stable sort by the derived lexicographic `Ord`; the
third components of the enumerated triples are pairwise distinct, so the
sorted result is unique and `List.insertionSort` computes exactly it. -/
def SourceMap.new (file : Option String) (tokens : List RawToken)
    (names : List String) (sources : List String)
    (sources_content : Option (List (Option String))) : SourceMap :=
  let index := List.insertionSort tripleLe
    (tokens.enum.map fun p => (p.2.dst_line, p.2.dst_col, p.1))
  { file := file, tokens := tokens, index := index, names := names,
    sources := sources, sources_content := sources_content.getD [] }

/-- `SourceMap::get_file`. -/
def SourceMap.get_file (m : SourceMap) : Option String := m.file

/-- `SourceMap::set_file`. -/
def SourceMap.set_file (m : SourceMap) (value : Option String) : SourceMap :=
  { m with file := value }

/-- `SourceMap::get_source`. -/
def SourceMap.get_source (m : SourceMap) (idx : Nat) : Option String :=
  m.sources[idx]?

/-- `SourceMap::set_source` (panics in Rust when the index does not exist;
the claims only exercise in-range indices, and an out-of-range write is
modelled as a no-op by `List.set`). -/
def SourceMap.set_source (m : SourceMap) (idx : Nat) (value : String) : SourceMap :=
  { m with sources := m.sources.set idx value }

/-- `SourceMap::get_source_contents`. -/
def SourceMap.get_source_contents (m : SourceMap) (idx : Nat) : Option String :=
  (m.sources_content[idx]?).join

/-- `SourceMap::set_source_contents`: lazily resizes the parallel list, then
writes the slot. -/
def SourceMap.set_source_contents (m : SourceMap) (idx : Nat)
    (value : Option String) : SourceMap :=
  let sc := if m.sources_content.length ≠ m.sources.length then
      m.sources_content ++ List.replicate (m.sources.length - m.sources_content.length) none
    else m.sources_content
  { m with sources_content := sc.set idx value }

/-- `SourceMap::get_name`. -/
def SourceMap.get_name (m : SourceMap) (idx : Nat) : Option String :=
  m.names[idx]?

/-- `SourceMap::remove_names`: clears the name table. -/
def SourceMap.remove_names (m : SourceMap) : SourceMap := { m with names := [] }

/-- `SourceMap::get_token_count`. -/
def SourceMap.get_token_count (m : SourceMap) : Nat := m.tokens.length

/-- `Token` of `types.rs`: a raw token together with the map it belongs to and
its own index in the token list. -/
structure Token where
  raw : RawToken
  i : SourceMap
  idx : Nat
deriving Repr, DecidableEq

/-- `SourceMap::get_token`. -/
def SourceMap.get_token (m : SourceMap) (idx : Nat) : Option Token :=
  (m.tokens[idx]?).map fun raw => { raw := raw, i := m, idx := idx }

/-- `Token::get_dst_line`. -/
def Token.get_dst_line (t : Token) : Nat := t.raw.dst_line

/-- `Token::get_dst_col`. -/
def Token.get_dst_col (t : Token) : Nat := t.raw.dst_col

/-- `Token::get_src_line`. -/
def Token.get_src_line (t : Token) : Nat := t.raw.src_line

/-- `Token::get_src_col`. -/
def Token.get_src_col (t : Token) : Nat := t.raw.src_col

/-- `Token::get_src_id`. -/
def Token.get_src_id (t : Token) : Nat := t.raw.src_id

/-- `Token::get_source`. -/
def Token.get_source (t : Token) : Option String :=
  if t.raw.src_id = SENTINEL then none else t.i.get_source t.raw.src_id

/-- `Token::has_source`. -/
def Token.has_source (t : Token) : Bool := t.raw.src_id ≠ SENTINEL

/-- `Token::get_name`. -/
def Token.get_name (t : Token) : Option String :=
  if t.raw.name_id = SENTINEL then none else t.i.get_name t.raw.name_id

/-- `Token::has_name`. -/
def Token.has_name (t : Token) : Bool := t.get_name.isSome

/-- `Token::get_name_id`. -/
def Token.get_name_id (t : Token) : Nat := t.raw.name_id

/-- The binary-search loop of `SourceMap::lookup_token`: narrows `[low, high)`
until `low = high`; at each step `mid = (low + high) / 2` and the probe
compares `(line, col) < (index[mid].0, index[mid].1)` by the Rust tuple order.
The loop terminates because `high - low` strictly decreases; the recursion is
driven structurally by that measure (the `fuel` argument, initially
`high - low`, never runs out before the loop exits) so the kernel can
evaluate the function. -/
def bsearchLow (index : List (Nat × Nat × Nat)) (line col : Nat) :
    Nat → Nat → Nat → Nat
  | fuel + 1, low, high =>
    if low < high then
      let mid := (low + high) / 2
      let ii := index.getD mid (0, 0, 0)
      if posLt (line, col) (ii.1, ii.2.1) then
        bsearchLow index line col fuel low mid
      else
        bsearchLow index line col fuel (mid + 1) high
    else low
  | 0, low, _ => low

/-- `SourceMap::lookup_token`: binary search over the sorted index, then the
entry just below the insertion point (if any). -/
def SourceMap.lookup_token (m : SourceMap) (line col : Nat) : Option Token :=
  let low := bsearchLow m.index line col m.index.length 0 m.index.length
  if 0 < low ∧ low ≤ m.index.length then
    m.get_token ((m.index.getD (low - 1) (0, 0, 0)).2.2)
  else none

/-- Strip one trailing carriage return, as Rust `str::lines` does for
`\r\n` line endings. -/
def stripCR (cs : List Char) : List Char :=
  if cs.getLast? = some '\r' then cs.dropLast else cs

/-- Split on `\n` accumulating the current line in reverse. -/
def splitLinesAux : List Char → List Char → List (List Char)
  | [], acc => [acc.reverse]
  | c :: rest, acc =>
    if c = '\n' then acc.reverse :: splitLinesAux rest []
    else splitLinesAux rest (c :: acc)

/-- Rust `str::lines`: lines split at `\n` (a final line ending yields no
trailing empty line), each line stripped of one trailing `\r`. -/
def rustLines (cs : List Char) : List (List Char) :=
  if cs = [] then []
  else
    let parts := splitLinesAux cs []
    (if cs.getLast? = some '\n' then parts.dropLast else parts).map stripCR

/-- The byte-offset loop shared by `Token::get_minified_name` and the reverse
iterator: walk the characters accumulating the UTF-8 byte offset `off` and the
UTF-16 column counter `idx`, stopping as soon as `idx` has reached the target
column. -/
def forwardScanAux (dstCol : Nat) : List Char → Nat → Nat → Nat
  | [], off, _ => off
  | c :: cs, off, idx =>
    if idx ≥ dstCol then off
    else forwardScanAux dstCol cs (off + c.utf8Size) (idx + utf16Size c)

/-- Byte offset of the UTF-16 column `dstCol` within a line (`types.rs`,
the loop of `Token::get_minified_name`). -/
def forwardScan (cs : List Char) (dstCol : Nat) : Nat :=
  forwardScanAux dstCol cs 0 0

/-- Rust byte slicing `&s[n..]`.  In every use the offset `n` is a sum of
UTF-8 lengths of a character prefix, hence a character boundary within the
string; the non-boundary case (which would panic in Rust) is unreachable. -/
def byteDrop : List Char → Nat → List Char
  | cs, 0 => cs
  | [], _ + 1 => []
  | c :: cs, n + 1 => byteDrop cs (n + 1 - c.utf8Size)

/-- Rust byte slicing `&s[..n]`; same boundary remark as `byteDrop`. -/
def byteTake : List Char → Nat → List Char
  | _, 0 => []
  | [], _ + 1 => []
  | c :: cs, n + 1 => c :: byteTake cs (n + 1 - c.utf8Size)

/-- Modelled from the spec: `utils.rs` is not under `src/`.  A valid
JavaScript identifier start is `$`, `_` or a Unicode ID-Start character;
ID-Start is approximated by ASCII letters, which covers every identifier the
claims exercise. -/
def isIdentStart (c : Char) : Bool := c = '$' ∨ c = '_' ∨ c.isAlpha

/-- Modelled from the spec: `utils.rs` is not under `src/`.  A valid
JavaScript identifier continuation is `$`, `_` or a Unicode ID-Continue
character; ID-Continue is approximated by ASCII letters and digits. -/
def isIdentCont (c : Char) : Bool := c = '$' ∨ c = '_' ∨ c.isAlpha ∨ c.isDigit

/-- Modelled from the spec: `utils.rs` is not under `src/`.  "Extract
identifier: given a string slice that starts at some position inside a line,
if the first character is a valid identifier start, return the longest prefix
consisting of identifier-continue characters.  Otherwise return none." -/
def get_javascript_token (cs : List Char) : Option (List Char) :=
  match cs with
  | [] => none
  | c :: rest =>
    if isIdentStart c then some (c :: rest.takeWhile isIdentCont) else none

/-- Modelled from the spec: `utils.rs` is not under `src/`.  "Valid
identifier: first character in `$`, `_` or Unicode ID-Start; every subsequent
character in `$`, `_` or Unicode ID-Continue" (so the empty string is not a
valid identifier). -/
def is_valid_javascript_identifier (cs : List Char) : Bool :=
  match cs with
  | [] => false
  | c :: rest => isIdentStart c && rest.all isIdentCont

/-- Modelled from the spec: `utils.rs` is not under `src/`.  Longest common
prefix of two strings, compared by characters. -/
def commonPrefix2 (a b : List Char) : List Char :=
  match a, b with
  | x :: xs, y :: ys => if x = y then x :: commonPrefix2 xs ys else []
  | _, _ => []

/-- Modelled from the spec: `utils.rs` is not under `src/`.  "Common prefix:
the longest string that is a prefix of every input string, compared by
characters.  Returns none if the input is empty or the longest common prefix
is empty." -/
def findCommonPrefixStr (l : List String) : Option String :=
  match l with
  | [] => none
  | s :: rest =>
    let p := rest.foldl (fun acc t => commonPrefix2 acc t.data) s.data
    if p = [] then none else some (String.mk p)

/-- `Token::get_minified_name`: fetch the line at `dst_line`, convert the
UTF-16 column `dst_col` to a byte offset and extract the identifier there. -/
def Token.get_minified_name (t : Token) (source : String) : Option String :=
  match (rustLines source.data)[t.raw.dst_line]? with
  | some source_line =>
    let off := forwardScan source_line t.raw.dst_col
    (get_javascript_token (byteDrop source_line off)).map String.mk
  | none => none

/-- The per-line cache of `ReverseOriginalTokenIter`: the cached line, its
`dst_line`, and the last character (UTF-16) and byte offsets visited on it
(`USIZE_SENTINEL` when fresh, mirroring the `!0` initialisation). -/
structure IterCache where
  source_line : List Char
  dst_line : Nat
  last_char_offset : Nat
  last_byte_offset : Nat
deriving Repr, DecidableEq

/-- The state of `ReverseOriginalTokenIter`: the token to be yielded next and
the optional line cache. -/
structure RevIterState where
  token : Option Token
  cache : Option IterCache
deriving Repr, DecidableEq

/-- Fetch the line for a cache miss: the line at `dst_line` or the empty line,
with both offsets set to the `!0` sentinel. -/
def freshLine (source : List Char) (dstLine : Nat) : List Char × Nat × Nat :=
  match (rustLines source)[dstLine]? with
  | some l => (l, USIZE_SENTINEL, USIZE_SENTINEL)
  | none => ([], USIZE_SENTINEL, USIZE_SENTINEL)

/-- The backward scan of the iterator: walk the characters before the cached
byte offset in reverse, moving the byte offset back until `chars_to_move`
UTF-16 units have been covered.  The byte offset never underflows because it
only retreats over characters that lie inside the scanned prefix. -/
def backScanAux (ctm : Nat) : List Char → Nat → Nat → Nat
  | [], newOff, _ => newOff
  | c :: cs, newOff, idx =>
    if idx ≥ ctm then newOff
    else backScanAux ctm cs (newOff - c.utf8Size) (idx + utf16Size c)

/-- `ReverseOriginalTokenIter::next`.  The result is `none` when the `usize`
subtraction `last_char_offset - dst_col` underflows (a panic in a debug
build); otherwise `some (item, state)` where `item = none` means the iterator
is exhausted. -/
def revIterNext (sm : SourceMap) (source : List Char) (st : RevIterState) :
    Option (Option (Token × Option (List Char)) × RevIterState) :=
  match st.token with
  | none => some (none, st)
  | some token =>
    let nextTok : Option Token :=
      if token.idx > 0 then sm.get_token (token.idx - 1) else none
    let slo : List Char × Nat × Nat :=
      match st.cache with
      | some e =>
        if e.dst_line = token.raw.dst_line then
          (e.source_line, e.last_char_offset, e.last_byte_offset)
        else freshLine source token.raw.dst_line
      | none => freshLine source token.raw.dst_line
    let source_line := slo.1
    let last_char_offset := slo.2.1
    let last_byte_offset := slo.2.2
    let off? : Option Nat :=
      if last_byte_offset = USIZE_SENTINEL then
        some (forwardScan source_line token.raw.dst_col)
      else if token.raw.dst_col > last_char_offset then
        none
      else
        some (backScanAux (last_char_offset - token.raw.dst_col)
          (byteTake source_line last_byte_offset).reverse last_byte_offset 0)
    match off? with
    | none => none
    | some byte_offset =>
      let cache' : Option IterCache :=
        some ⟨source_line, token.raw.dst_line, token.raw.dst_col, byte_offset⟩
      if byte_offset ≥ utf8Total source_line then
        some (some (token, none), { token := nextTok, cache := none })
      else
        some (some (token, get_javascript_token (byteDrop source_line byte_offset)),
          { token := nextTok, cache := cache' })

/-- Produce the items of `ReverseOriginalTokenIter ... .take fuel` eagerly:
the list of items actually yielded, together with a flag that is true when
producing the item after the last listed one would panic.  Production is
strictly sequential in the Rust loop as well (`peek` forces exactly the next
item), so this list together with the flag determines the loop's behaviour. -/
def buildVisited (sm : SourceMap) (source : List Char) :
    Nat → RevIterState → List (Token × Option (List Char)) × Bool
  | 0, _ => ([], false)
  | fuel + 1, st =>
    match revIterNext sm source st with
    | none => ([], true)
    | some (none, _) => ([], false)
    | some (some e, st') =>
      let r := buildVisited sm source fuel st'
      (e :: r.1, r.2)

/-- The `while let` loop of `get_original_function_name` over the produced
items.  At item `e1` the loop first tests `e1`'s identifier against
`minified_name` and only then peeks; a match returns `token.get_name()`.
When the items run out the loop's next `next()`/`peek()` call is the one that
panics if the production flag is set, so a panicking tail yields `none`
(panic) exactly when no return happened among the listed items. -/
def scanVisited (name : List Char) :
    List (Token × Option (List Char)) → Bool → Option (Option String)
  | [], panicked => if panicked then none else some none
  | [_], panicked => if panicked then none else some none
  | e1 :: e2 :: rest, panicked =>
    if e1.2 = some name ∧ e2.2 = some ("function".data) then
      some e1.1.get_name
    else scanVisited name (e2 :: rest) panicked

/-- `SourceMap::get_original_function_name`.  The outer `Option` is the panic
marker of the debug-build `usize` underflow inside the reverse iterator
(`none` = panic); `some r` is the Rust return value `r`. -/
def SourceMap.get_original_function_name (m : SourceMap) (line col : Nat)
    (minified_name : String) (source : String) : Option (Option String) :=
  if ¬ is_valid_javascript_identifier minified_name.data then some none
  else
    let st0 : RevIterState := { token := m.lookup_token line col, cache := none }
    let vp := buildVisited m source.data 1000 st0
    scanVisited minified_name.data vp.1 vp.2

/-- The minified source of the function-name recovery scenario. -/
def gofnSource : String := "function a(){}function b(){}"

/-- The map of the scenario exactly as the specification states it: tokens at
columns 9 and 22 of line 0, named. -/
def gofnSpecMap : SourceMap :=
  SourceMap.new none
    [⟨0, 9, 0, 0, SENTINEL, 0⟩, ⟨0, 22, 0, 0, SENTINEL, 1⟩]
    ["original_a", "original_b"] [] none

/-- The scenario with tokens that also cover the `function` keywords (columns
0 and 14) and with the named token sitting on the identifier `b` (column 23). -/
def gofnFixedMap : SourceMap :=
  SourceMap.new none
    [⟨0, 0, 0, 0, SENTINEL, SENTINEL⟩, ⟨0, 9, 0, 0, SENTINEL, 0⟩,
     ⟨0, 14, 0, 0, SENTINEL, SENTINEL⟩, ⟨0, 23, 0, 0, SENTINEL, 1⟩]
    ["original_a", "original_b"] [] none

/-- The error taxonomy of `errors.rs` (not under `src/`; kinds as listed by
the specification). -/
inductive Error where
  | IndexedSourcemap
  | RegularSourcemap
  | BadJson
  | VlqLeftover
  | VlqTruncated
  | VlqOverflow
  | InvalidBase64
  | CannotFlatten (detail : String)
  | Io (detail : String)
deriving Repr, DecidableEq

/-- Modelled from the spec: `builder.rs` is not under `src/`.  The
`SourceMapBuilder` interns sources and names via insertion-order maps from
string to index, keeps the token list in insertion order, and maintains the
parallel source-contents list. -/
structure SourceMapBuilder where
  file : Option String
  tokens : List RawToken
  names : List String
  sources : List String
  source_contents : List (Option String)
deriving Repr, DecidableEq

/-- Modelled from the spec: `SourceMapBuilder::new` starts empty with the
given file. -/
def SourceMapBuilder.new (file : Option String) : SourceMapBuilder :=
  { file := file, tokens := [], names := [], sources := [], source_contents := [] }

/-- Insertion-order interning: the index of `s` if already present, else `s`
is appended and receives the next index. -/
def internStr (l : List String) (s : String) : Nat × List String :=
  if s ∈ l then (l.findIdx (· = s), l) else (l.length, l ++ [s])

/-- Interning of an optional string: the `!0` sentinel stands for an absent
one. -/
def internOpt (l : List String) : Option String → Nat × List String
  | none => (SENTINEL, l)
  | some s => internStr l s

/-- Modelled from the spec: `SourceMapBuilder::add` interns the optional
source and name strings (the `!0` sentinel standing for an absent one),
appends the raw token and returns it. -/
def SourceMapBuilder.add (b : SourceMapBuilder) (dst_line dst_col src_line src_col : Nat)
    (source : Option String) (name : Option String) : RawToken × SourceMapBuilder :=
  let sp := internOpt b.sources source
  let np := internOpt b.names name
  let raw : RawToken := ⟨dst_line, dst_col, src_line, src_col, sp.1, np.1⟩
  (raw, { b with tokens := b.tokens ++ [raw], sources := sp.2, names := np.2 })

/-- Modelled from the spec: `SourceMapBuilder::add_token` forwards the
coordinates of an existing token while optionally dropping its name. -/
def SourceMapBuilder.add_token (b : SourceMapBuilder) (t : Token) (with_names : Bool) :
    RawToken × SourceMapBuilder :=
  b.add t.get_dst_line t.get_dst_col t.get_src_line t.get_src_col
    t.get_source (if with_names then t.get_name else none)

/-- Modelled from the spec: `SourceMapBuilder::has_source_contents`. -/
def SourceMapBuilder.has_source_contents (b : SourceMapBuilder) (src_id : Nat) : Bool :=
  (b.source_contents[src_id]?).join.isSome

/-- Modelled from the spec: `SourceMapBuilder::set_source_contents` "records
or clears content; resizes the parallel content list lazily".  The sentinel
id never denotes a source, so recording under it is a no-op (an out-of-range
`List.set` is also a no-op). -/
def SourceMapBuilder.set_source_contents (b : SourceMapBuilder) (src_id : Nat)
    (contents : Option String) : SourceMapBuilder :=
  if src_id = SENTINEL then b
  else
    let sc := if b.sources.length > b.source_contents.length then
        b.source_contents ++ List.replicate (b.sources.length - b.source_contents.length) none
      else b.source_contents
    { b with source_contents := sc.set src_id contents }

/-- Modelled from the spec: `SourceMapBuilder::strip_prefixes` removes, from
each source, the first prefix of the list that is an exact leading substring. -/
def stripOneSource (prefixList : List String) (s : String) : String :=
  match prefixList.find? (fun p => decide (s.data.take p.data.length = p.data)) with
  | some p => String.mk (s.data.drop p.data.length)
  | none => s

/-- Modelled from the spec: `SourceMapBuilder::strip_prefixes` applied to all
sources. -/
def SourceMapBuilder.strip_prefixes (b : SourceMapBuilder) (prefixList : List String) :
    SourceMapBuilder :=
  { b with sources := b.sources.map (stripOneSource prefixList) }

/-- Modelled from the spec: `SourceMapBuilder::into_sourcemap` finalizes and
computes the sorted index. -/
def SourceMapBuilder.into_sourcemap (b : SourceMapBuilder) : SourceMap :=
  SourceMap.new b.file b.tokens b.names b.sources (some b.source_contents)

/-- `RewriteOptions` of `types.rs` (the `base_path` only matters to the
filesystem step, which is not modelled). -/
structure RewriteOptions where
  with_names : Bool := true
  with_source_contents : Bool := true
  load_local_source_contents : Bool := false
  strip_prefixes : List String := []
deriving Repr, DecidableEq

/-- The loop body of `SourceMap::rewrite`: add the token through the builder
and copy its source contents on the first occurrence of its (new) source id. -/
def rewriteStep (m : SourceMap) (options : RewriteOptions)
    (b : SourceMapBuilder) (t : Token) : SourceMapBuilder :=
  let rb := b.add_token t options.with_names
  if rb.1.src_id ≠ SENTINEL ∧ options.with_source_contents = true ∧
      rb.2.has_source_contents rb.1.src_id = false then
    rb.2.set_source_contents rb.1.src_id (m.get_source_contents t.get_src_id)
  else rb.2

/-- The token views yielded by `SourceMap::tokens()` in order. -/
def SourceMap.tokenViews (m : SourceMap) : List Token :=
  m.tokens.enum.map fun p => { raw := p.2, i := m, idx := p.1 }

/-- `SourceMap::rewrite`.  The filesystem step behind
`load_local_source_contents` is not modelled (every claim sets the option to
false); in the model that branch leaves the builder unchanged. -/
def SourceMap.rewrite (m : SourceMap) (options : RewriteOptions) :
    Except Error SourceMap :=
  let b := m.tokenViews.foldl (rewriteStep m options) (SourceMapBuilder.new m.get_file)
  let litPrefixList := options.strip_prefixes.filter (fun p => p ≠ "~")
  let cp : List String :=
    if "~" ∈ options.strip_prefixes then
      match findCommonPrefixStr m.sources with
      | some p => [p]
      | none => []
    else []
  let prefixList := litPrefixList ++ cp
  let b := if prefixList ≠ [] then b.strip_prefixes prefixList else b
  Except.ok b.into_sourcemap

/-- `SourceMapSection` of `types.rs`. -/
structure SourceMapSection where
  offset : Nat × Nat
  url : Option String
  map : Option SourceMap
deriving Repr, DecidableEq

/-- `SourceMapSection::get_offset`. -/
def SourceMapSection.get_offset (s : SourceMapSection) : Nat × Nat := s.offset

/-- `SourceMapSection::get_sourcemap`. -/
def SourceMapSection.get_sourcemap (s : SourceMapSection) : Option SourceMap := s.map

/-- `SourceMapSection::get_url`. -/
def SourceMapSection.get_url (s : SourceMapSection) : Option String := s.url

/-- `SourceMapIndex` of `types.rs`. -/
structure SourceMapIndex where
  file : Option String
  sections : List SourceMapSection
deriving Repr, DecidableEq

/-- `SourceMapIndex::new`. -/
def SourceMapIndex.new (file : Option String) (sections : List SourceMapSection) :
    SourceMapIndex :=
  { file := file, sections := sections }

/-- `SourceMapIndex::get_file`. -/
def SourceMapIndex.get_file (smi : SourceMapIndex) : Option String := smi.file

/-- The section walk of `SourceMapIndex::lookup_token`.  A section is skipped
(`continue`) when `off_line < line || off_col < col`; otherwise, when it has
an inline map, the child is queried at `(line - off_line, col - off_col)` —
two `u32` subtractions that underflow (a panic in a debug build, modelled as
the outer `none`) unless the offset equals the query exactly.  `some none`
means the walk ended without a token. -/
def indexWalk (line col : Nat) : List SourceMapSection → Option (Option Token)
  | [] => some none
  | s :: rest =>
    if s.get_offset.1 < line ∨ s.get_offset.2 < col then indexWalk line col rest
    else
      match s.get_sourcemap with
      | none => indexWalk line col rest
      | some m =>
        if line < s.get_offset.1 ∨ col < s.get_offset.2 then none
        else
          match m.lookup_token (line - s.get_offset.1) (col - s.get_offset.2) with
          | some tok => some (some tok)
          | none => indexWalk line col rest

/-- `SourceMapIndex::lookup_token` (see `indexWalk` for the panic marker). -/
def SourceMapIndex.lookup_token (smi : SourceMapIndex) (line col : Nat) :
    Option (Option Token) :=
  indexWalk line col smi.sections

/-- The inner token loop of `SourceMapIndex::flatten` for one section: each
child token is re-added with its generated position shifted by the section
offset (`u32` wrapping addition), and its source contents are copied whenever
the new id has none yet. -/
def flattenSectionTokens (m : SourceMap) (offLine offCol : Nat)
    (b : SourceMapBuilder) : SourceMapBuilder :=
  m.tokenViews.foldl (fun b t =>
    let rb := b.add ((t.get_dst_line + offLine) % U32MOD)
      ((t.get_dst_col + offCol) % U32MOD)
      t.get_src_line t.get_src_col t.get_source t.get_name
    if rb.2.has_source_contents rb.1.src_id = false then
      rb.2.set_source_contents rb.1.src_id (m.get_source_contents t.get_src_id)
    else rb.2) b

/-- The section loop of `SourceMapIndex::flatten`. -/
def flattenGo : List SourceMapSection → SourceMapBuilder → Except Error SourceMapBuilder
  | [], b => Except.ok b
  | s :: rest, b =>
    match s.get_sourcemap with
    | none =>
      Except.error (Error.CannotFlatten
        ("Section has an unresolved sourcemap: " ++ (s.get_url.getD "<unknown url>")))
    | some m => flattenGo rest (flattenSectionTokens m s.get_offset.1 s.get_offset.2 b)

/-- `SourceMapIndex::flatten`. -/
def SourceMapIndex.flatten (smi : SourceMapIndex) : Except Error SourceMap :=
  match flattenGo smi.sections (SourceMapBuilder.new smi.get_file) with
  | Except.ok b => Except.ok b.into_sourcemap
  | Except.error e => Except.error e

/-- `SourceMapIndex::flatten_and_rewrite`. -/
def SourceMapIndex.flatten_and_rewrite (smi : SourceMapIndex)
    (options : RewriteOptions) : Except Error SourceMap :=
  match smi.flatten with
  | Except.ok sm => sm.rewrite options
  | Except.error e => Except.error e

/-- `DecodedMap` of `types.rs`. -/
inductive DecodedMap where
  | Regular (sm : SourceMap)
  | Index (smi : SourceMapIndex)
deriving Repr, DecidableEq

/-- `SourceMap::from_reader`.  Modelled from the spec: `decoder.rs` is not
under `src/`, so the outcome of `decode(rdr)` is passed in as `decoded`; the
function is the `match` dispatch of `types.rs` (with `?` propagating a decode
error). -/
def SourceMap.from_reader (decoded : Except Error DecodedMap) :
    Except Error SourceMap :=
  match decoded with
  | Except.ok (DecodedMap.Regular sm) => Except.ok sm
  | Except.ok (DecodedMap.Index _) => Except.error Error.IndexedSourcemap
  | Except.error e => Except.error e

/-- `SourceMap::from_slice`: the same dispatch over `decode_slice`. -/
def SourceMap.from_slice (decoded : Except Error DecodedMap) :
    Except Error SourceMap :=
  match decoded with
  | Except.ok (DecodedMap.Regular sm) => Except.ok sm
  | Except.ok (DecodedMap.Index _) => Except.error Error.IndexedSourcemap
  | Except.error e => Except.error e

/-- `SourceMapIndex::from_reader`: the dual dispatch. -/
def SourceMapIndex.from_reader (decoded : Except Error DecodedMap) :
    Except Error SourceMapIndex :=
  match decoded with
  | Except.ok (DecodedMap.Regular _) => Except.error Error.RegularSourcemap
  | Except.ok (DecodedMap.Index smi) => Except.ok smi
  | Except.error e => Except.error e

/-- `SourceMapIndex::from_slice`: the dual dispatch over `decode_slice`. -/
def SourceMapIndex.from_slice (decoded : Except Error DecodedMap) :
    Except Error SourceMapIndex :=
  match decoded with
  | Except.ok (DecodedMap.Regular _) => Except.error Error.RegularSourcemap
  | Except.ok (DecodedMap.Index smi) => Except.ok smi
  | Except.error e => Except.error e

/-- C9: for every decode outcome, requesting the wrong variant fails with the
dedicated error: `SourceMap::from_reader` and `SourceMap::from_slice` return
`IndexedSourcemap` on an indexed document and the regular map otherwise, and
`SourceMapIndex::from_reader` returns `RegularSourcemap` on a regular
document and the index otherwise. -/
theorem claim9_variant_dispatch :
    (∀ (d : Except Error DecodedMap) (smi : SourceMapIndex),
      d = Except.ok (DecodedMap.Index smi) →
        SourceMap.from_reader d = Except.error Error.IndexedSourcemap ∧
        SourceMap.from_slice d = Except.error Error.IndexedSourcemap ∧
        SourceMapIndex.from_reader d = Except.ok smi) ∧
    (∀ (d : Except Error DecodedMap) (sm : SourceMap),
      d = Except.ok (DecodedMap.Regular sm) →
        SourceMap.from_reader d = Except.ok sm ∧
        SourceMap.from_slice d = Except.ok sm ∧
        SourceMapIndex.from_reader d = Except.error Error.RegularSourcemap) := by
  constructor
  · rintro d smi rfl
    exact ⟨rfl, rfl, rfl⟩
  · rintro d sm rfl
    exact ⟨rfl, rfl, rfl⟩

/-- Witness for C9 at a concrete indexed and a concrete regular document. -/
theorem claim9_witness :
    SourceMap.from_reader (Except.ok (DecodedMap.Index (SourceMapIndex.new none [])))
        = Except.error Error.IndexedSourcemap ∧
    SourceMapIndex.from_reader (Except.ok (DecodedMap.Regular (SourceMap.new none [] [] [] none)))
        = Except.error Error.RegularSourcemap :=
  ⟨(claim9_variant_dispatch.1 _ _ rfl).1,
   (claim9_variant_dispatch.2 _ _ rfl).2.2⟩

/-- C10: after `remove_names`, every token of the map reports no name
(`get_name` is none and `has_name` is false, with no panic even for a
previously valid `name_id`), while the token list (raw `name_id` fields
included), the lookup index, the sources, the source contents and the file
are unchanged. -/
theorem claim10_remove_names :
    ∀ (m : SourceMap),
      (∀ (i : Nat) (t : Token), m.remove_names.get_token i = some t →
        t.get_name = none ∧ t.has_name = false) ∧
      m.remove_names.tokens = m.tokens ∧
      m.remove_names.index = m.index ∧
      m.remove_names.sources = m.sources ∧
      m.remove_names.sources_content = m.sources_content ∧
      m.remove_names.file = m.file := by
  intro m
  refine ⟨?_, rfl, rfl, rfl, rfl, rfl⟩
  intro i t ht
  have hname : t.get_name = none := by
    simp only [SourceMap.get_token, Option.map_eq_some'] at ht
    obtain ⟨raw, _, rfl⟩ := ht
    simp [Token.get_name, SourceMap.get_name, SourceMap.remove_names]
  exact ⟨hname, by simp [Token.has_name, hname]⟩

/-- Witness for C10 on a map whose single token has a valid name id. -/
theorem claim10_witness :
    ((SourceMap.new none [⟨0, 0, 0, 0, SENTINEL, 0⟩] ["n"] [] none).remove_names.get_token 0).elim
      True (fun t => t.get_name = none ∧ t.has_name = false) := by
  have h := (claim10_remove_names (SourceMap.new none [⟨0, 0, 0, 0, SENTINEL, 0⟩] ["n"] [] none)).1 0
  cases ht : (SourceMap.new none [⟨0, 0, 0, 0, SENTINEL, 0⟩] ["n"] [] none).remove_names.get_token 0 with
  | none => exact trivial
  | some t => exact h t ht

/-- The section walk as claim C1 states it: every section with an inline
child map whose offset is (componentwise) at or before `(line, col)` is
queried at `(line - oL, col - oC)`, the first non-null result is returned,
and other sections are skipped silently. -/
def indexLookupClaimed (line col : Nat) : List SourceMapSection → Option Token
  | [] => none
  | s :: rest =>
    match s.get_sourcemap with
    | none => indexLookupClaimed line col rest
    | some m =>
      if s.get_offset.1 ≤ line ∧ s.get_offset.2 ≤ col then
        match m.lookup_token (line - s.get_offset.1) (col - s.get_offset.2) with
        | some tok => some tok
        | none => indexLookupClaimed line col rest
      else indexLookupClaimed line col rest

/-- The section walk as the amended claim states it: a section is skipped
when `off_line < line` or `off_col < col` (or when it has no inline map); a
remaining section with an inline map whose offset equals the query exactly is
queried at `(0, 0)` and the first non-null result is returned; a remaining
section whose offset exceeds the query in some coordinate makes the `u32`
offset subtraction underflow (a debug-build panic, the outer `none`). -/
def indexWalkAmended (line col : Nat) : List SourceMapSection → Option (Option Token)
  | [] => some none
  | s :: rest =>
    if s.get_offset.1 < line ∨ s.get_offset.2 < col then indexWalkAmended line col rest
    else
      match s.get_sourcemap with
      | none => indexWalkAmended line col rest
      | some m =>
        if s.get_offset = (line, col) then
          match m.lookup_token 0 0 with
          | some tok => some (some tok)
          | none => indexWalkAmended line col rest
        else none

/-- The child map of the first section of the indexed-lookup scenario: one
token at generated position `(0, 0)`. -/
def c1Child1 : SourceMap :=
  SourceMap.new (some "one") [⟨0, 0, 0, 0, SENTINEL, SENTINEL⟩] [] [] none

/-- The child map of the second section of the indexed-lookup scenario. -/
def c1Child2 : SourceMap :=
  SourceMap.new (some "two") [⟨0, 0, 0, 0, SENTINEL, SENTINEL⟩] [] [] none

/-- The indexed map of the scenario: sections at offsets `(0,0)` and
`(10,0)`, each with one token at `(0, 0)`. -/
def c1ExampleIndex : SourceMapIndex :=
  SourceMapIndex.new none
    [⟨(0, 0), none, some c1Child1⟩, ⟨(10, 0), none, some c1Child2⟩]

/-- A one-section indexed map on which the claimed walk and the code
disagree. -/
def c1CexIndex : SourceMapIndex :=
  SourceMapIndex.new none [⟨(0, 0), none, some c1Child1⟩]

/-- C1 counterexample: querying `(1, 0)` on an indexed map with a single
section at offset `(0, 0)` containing a token at `(0, 0)`.  The claim's walk
(offset at or before the query) finds that token; the code skips the section
because `off_line < line` and returns no token. -/
theorem claim1_counterexample :
    c1CexIndex.lookup_token 1 0 = some none ∧
    indexLookupClaimed 1 0 c1CexIndex.sections
      = some ⟨⟨0, 0, 0, 0, SENTINEL, SENTINEL⟩, c1Child1, 0⟩ := by
  constructor
  · decide
  · decide

/-- The code's section walk coincides with the amended description. -/
theorem indexWalk_eq_amended (line col : Nat) :
    ∀ ss : List SourceMapSection,
      indexWalk line col ss = indexWalkAmended line col ss := by
  intro ss
  induction ss with
  | nil => rfl
  | cons s rest ih =>
    rcases hoff : s.get_offset with ⟨oL, oC⟩
    by_cases hskip : oL < line ∨ oC < col
    · simp only [indexWalk, indexWalkAmended, hoff, if_pos hskip, ih]
    · cases hmap : s.get_sourcemap with
      | none =>
        simp only [indexWalk, indexWalkAmended, hoff, if_neg hskip, hmap, ih]
      | some m =>
        by_cases heq : oL = line ∧ oC = col
        · obtain ⟨rfl, rfl⟩ := heq
          have h1 : ¬ (oL < oL ∨ oC < oC) := by omega
          simp only [indexWalk, indexWalkAmended, hoff, if_neg hskip, hmap, if_neg h1,
            Nat.sub_self, if_pos rfl]
          cases m.lookup_token 0 0 with
          | none => exact ih
          | some tok => rfl
        · have h1 : line < oL ∨ col < oC := by omega
          have heq2 : ¬ ((oL, oC) = (line, col)) := by
            simp only [Prod.mk.injEq]; exact heq
          simp only [indexWalk, indexWalkAmended, hoff, if_neg hskip, hmap, if_pos h1,
            if_neg heq2]

/-- C1 amended: the walk skips every section whose offset has a coordinate
strictly below the query (and every section without an inline map); a
remaining section is consulted, and since the skip test guarantees the offset
is componentwise at or after the query, the child subtraction only succeeds
when the offset equals the query exactly, in which case the child is queried
at `(0, 0)` and the first non-null result wins; otherwise the subtraction
underflows.  On the scenario map, `lookup_token(10, 0)` still returns the
token of the second section. -/
theorem claim1_amended_lookup :
    (∀ (smi : SourceMapIndex) (line col : Nat),
      smi.lookup_token line col = indexWalkAmended line col smi.sections) ∧
    c1ExampleIndex.lookup_token 10 0
      = some (some ⟨⟨0, 0, 0, 0, SENTINEL, SENTINEL⟩, c1Child2, 0⟩) := by
  refine ⟨fun smi line col => indexWalk_eq_amended line col smi.sections, by decide⟩

/-- C2 counterexample: on an indexed map with one inline section at offset
`(1, 0)`, the query `(0, 0)` passes the skip test (neither offset coordinate
is strictly below the query) and the `u32` subtraction `line - off_line`
underflows, so `SourceMapIndex::lookup_token` is not panic-free. -/
theorem claim2_counterexample :
    (SourceMapIndex.new none [⟨(1, 0), none, some c1Child1⟩]).lookup_token 0 0 = none := by
  decide

/-- When every section with an inline map is skipped or sits at exactly the
query offset, the walk never reaches the underflowing subtraction. -/
theorem indexWalk_no_panic (line col : Nat) :
    ∀ ss : List SourceMapSection,
      (∀ s ∈ ss, s.get_sourcemap ≠ none →
        (s.get_offset.1 < line ∨ s.get_offset.2 < col) ∨ s.get_offset = (line, col)) →
      ∃ r, indexWalk line col ss = some r := by
  intro ss
  induction ss with
  | nil => exact fun _ => ⟨none, rfl⟩
  | cons s rest ih =>
    intro hall
    have hs := hall s (List.mem_cons_self s rest)
    have hrest : ∀ x ∈ rest, x.get_sourcemap ≠ none →
        (x.get_offset.1 < line ∨ x.get_offset.2 < col) ∨ x.get_offset = (line, col) :=
      fun x hx => hall x (List.mem_cons_of_mem s hx)
    rcases hoff : s.get_offset with ⟨oL, oC⟩
    by_cases hskip : oL < line ∨ oC < col
    · simp only [indexWalk, hoff, if_pos hskip]
      exact ih hrest
    · cases hmap : s.get_sourcemap with
      | none =>
        simp only [indexWalk, hoff, if_neg hskip, hmap]
        exact ih hrest
      | some m =>
        have heq : (oL, oC) = (line, col) := by
          rcases hs (by simp [hmap]) with h | h
          · rw [hoff] at h; exact absurd h hskip
          · rw [hoff] at h; exact h
        have heq2 : oL = line ∧ oC = col := by
          simpa [Prod.mk.injEq] using heq
        obtain ⟨rfl, rfl⟩ := heq2
        have h1 : ¬ (oL < oL ∨ oC < oC) := by omega
        simp only [indexWalk, hoff, if_neg hskip, hmap, if_neg h1, Nat.sub_self]
        cases m.lookup_token 0 0 with
        | none => exact ih hrest
        | some tok => exact ⟨some tok, rfl⟩

/-- C2 amended: `SourceMap::lookup_token` is total — it returns either none
or a token of the map (with its own index into the token list); and
`SourceMapIndex::lookup_token` terminates without the underflow panic
whenever every section with an inline map is either skipped (an offset
coordinate strictly below the query) or sits at exactly the query offset. -/
theorem claim2_amended_lookup_total :
    (∀ (m : SourceMap) (line col : Nat),
      m.lookup_token line col = none ∨
      ∃ t, m.lookup_token line col = some t ∧ m.tokens[t.idx]? = some t.raw ∧ t.i = m) ∧
    (∀ (smi : SourceMapIndex) (line col : Nat),
      (∀ s ∈ smi.sections, s.get_sourcemap ≠ none →
        (s.get_offset.1 < line ∨ s.get_offset.2 < col) ∨ s.get_offset = (line, col)) →
      ∃ r, smi.lookup_token line col = some r) := by
  constructor
  · intro m line col
    rw [SourceMap.lookup_token]
    by_cases hc : 0 < bsearchLow m.index line col m.index.length 0 m.index.length ∧
        bsearchLow m.index line col m.index.length 0 m.index.length ≤ m.index.length
    · rw [if_pos hc]
      rw [SourceMap.get_token]
      cases ht : m.tokens[(m.index.getD (bsearchLow m.index line col m.index.length 0 m.index.length - 1) (0, 0, 0)).2.2]? with
      | none => left; rfl
      | some raw => right; exact ⟨_, rfl, by simpa using ht, rfl⟩
    · rw [if_neg hc]; left; rfl
  · intro smi line col hall
    exact indexWalk_no_panic line col smi.sections hall

/-- Witness for C2 amended, applying both parts at concrete inputs. -/
theorem claim2_witness :
    ((SourceMap.new none [] [] [] none).lookup_token 0 0 = none ∨
      ∃ t, (SourceMap.new none [] [] [] none).lookup_token 0 0 = some t ∧
        (SourceMap.new none [] [] [] none).tokens[t.idx]? = some t.raw ∧
        t.i = SourceMap.new none [] [] [] none) ∧
    ∃ r, c1ExampleIndex.lookup_token 10 0 = some r :=
  ⟨claim2_amended_lookup_total.1 _ 0 0,
   claim2_amended_lookup_total.2 c1ExampleIndex 10 0 (by decide)⟩

/-- The byte-offset loop returns immediately once the UTF-16 counter has
reached the target column. -/
theorem forwardScanAux_stop (col : Nat) (cs : List Char) (off idx : Nat)
    (h : idx ≥ col) : forwardScanAux col cs off idx = off := by
  cases cs with
  | nil => rfl
  | cons c rest => simp [forwardScanAux, h]

/-- Shifting out an already-consumed prefix of the byte-offset loop. -/
theorem forwardScanAux_shift (cs : List Char) :
    ∀ col off idx, idx < col →
      forwardScanAux col cs off idx = off + forwardScanAux (col - idx) cs 0 0 := by
  induction cs with
  | nil => intro col off idx _; rfl
  | cons c rest ih =>
    intro col off idx hlt
    have h0 : ¬ (idx ≥ col) := by omega
    have h0r : ¬ ((0 : Nat) ≥ col - idx) := by omega
    rw [forwardScanAux, if_neg h0, forwardScanAux, if_neg h0r]
    by_cases h2 : idx + utf16Size c < col
    · have h2r : 0 + utf16Size c < col - idx := by omega
      rw [ih _ _ _ h2, ih _ _ _ h2r]
      have harg : col - (idx + utf16Size c) = col - idx - (0 + utf16Size c) := by omega
      rw [harg]
      omega
    · rw [forwardScanAux_stop _ _ _ _ (by omega), forwardScanAux_stop _ _ _ _ (by omega)]
      omega

/-- A target column that lies strictly after the UTF-16 end of the first `k`
characters and at or before the UTF-16 end of the first `k + 1` characters
resolves to the byte offset of the end of the first `k + 1` characters: a
column inside a surrogate pair behaves like the end of that code point. -/
theorem forwardScan_char_boundary :
    ∀ (k : Nat) (cs : List Char) (col : Nat),
      utf16Total (cs.take k) < col → col ≤ utf16Total (cs.take (k + 1)) →
      forwardScan cs col = utf8Total (cs.take (k + 1)) := by
  intro k
  induction k with
  | zero =>
    intro cs col h1 h2
    simp only [List.take_zero, utf16Total, List.map_nil, List.sum_nil] at h1
    cases cs with
    | nil => simp [utf16Total] at h2; omega
    | cons c rest =>
      simp only [List.take_succ_cons, List.take_zero, utf16Total, List.map_cons,
        List.map_nil, List.sum_cons, List.sum_nil] at h2
      rw [forwardScan, forwardScanAux, if_neg (by omega)]
      rw [forwardScanAux_stop _ _ _ _ (by omega)]
      simp [utf8Total]
  | succ k ih =>
    intro cs col h1 h2
    cases cs with
    | nil =>
      simp [utf16Total] at h1 h2
      omega
    | cons c rest =>
      simp only [List.take_succ_cons, utf16Total, List.map_cons, List.sum_cons] at h1 h2
      have hcpos : utf16Size c < col := by
        have : (0 : Nat) ≤ (List.map utf16Size (rest.take k)).sum := Nat.zero_le _
        omega
      rw [forwardScan, forwardScanAux, if_neg (by omega)]
      rw [forwardScanAux_shift _ _ _ _ (by omega)]
      have ihr := ih rest (col - utf16Size c)
        (by simp only [utf16Total]; omega) (by simp only [utf16Total]; omega)
      rw [forwardScan] at ihr
      simp only [Nat.zero_add] at *
      rw [ihr]
      simp [utf8Total, List.take_succ_cons]

/-- The map holding the token of the UTF-16 fidelity scenario. -/
def c4Map : SourceMap := SourceMap.new none [⟨0, 3, 0, 0, SENTINEL, SENTINEL⟩] [] [] none

/-- C4 counterexample: on the line `a😀b` (`a` at column 0, the emoji at
columns 1–2, `b` at column 3) a token at column 2 — the low surrogate of the
emoji — extracts the identifier `b`, while a token at column 1 — the start of
that code point — extracts nothing: the claim's "treated as if it fell at the
start of that code point" would force both columns to behave alike. -/
theorem claim4_counterexample :
    Token.get_minified_name ⟨⟨0, 2, 0, 0, SENTINEL, SENTINEL⟩, c4Map, 0⟩ "a😀b" = some "b" ∧
    Token.get_minified_name ⟨⟨0, 1, 0, 0, SENTINEL, SENTINEL⟩, c4Map, 0⟩ "a😀b" = none := by
  exact ⟨by decide, by decide⟩

/-- C4 amended: the column-to-byte conversion of `get_minified_name` walks
code points, advancing the byte offset by each one's UTF-8 length and the
counter by its UTF-16 length, stopping as soon as the counter reaches
`dst_col`; a column that falls inside a surrogate pair of a non-BMP code
point is treated as if it fell at the end of that code point (the start of
the next one).  For the line `a😀b`, a token with `dst_col = 3` extracts the
identifier `b`. -/
theorem claim4_amended_minified_name :
    (∀ (k : Nat) (cs : List Char) (col : Nat),
      utf16Total (cs.take k) < col → col ≤ utf16Total (cs.take (k + 1)) →
      forwardScan cs col = utf8Total (cs.take (k + 1))) ∧
    Token.get_minified_name ⟨⟨0, 3, 0, 0, SENTINEL, SENTINEL⟩, c4Map, 0⟩ "a😀b" = some "b" := by
  exact ⟨forwardScan_char_boundary, by decide⟩

/-- Witness for C4 amended applied at the surrogate column of the scenario
line: column 2 lies inside the emoji (after the first character's single
UTF-16 unit, at or before the three units of `a😀`), so the byte offset is
that of the end of the emoji. -/
theorem claim4_witness :
    forwardScan "a😀b".data 2 = utf8Total ("a😀b".data.take 2) :=
  claim4_amended_minified_name.1 1 "a😀b".data 2 (by decide) (by decide)

/-- C5 counterexample: the specification's function-name recovery scenario as
stated (tokens only at columns 9 and 22) returns no name: the token at column
22 sits on the space before `b` so its extracted identifier is not `b`, and
no visited token is preceded by one extracting `function`. -/
theorem claim5_counterexample :
    gofnSpecMap.get_original_function_name 0 22 "b" gofnSource = some none ∧
    gofnSpecMap.get_original_function_name 0 22 "b" gofnSource
      ≠ some (some "original_b") := by
  exact ⟨by decide, by decide⟩

/-- C5 amended: `get_original_function_name` returns none immediately when
`minified_name` is not a syntactically valid JavaScript identifier; otherwise
it walks at most 1000 tokens in reverse from `lookup_token(line, col)` and
returns `token.get_name()` of the first visited token whose extracted
identifier equals `minified_name` and whose next visited token — the token
immediately before it in the map — extracts the identifier `function`.  With
tokens at columns 0, 9, 14 and 23 (the token at column 23 named
`original_b`), `get_original_function_name(0, 23, "b", src)` returns
`original_b`. -/
theorem claim5_amended_function_name :
    (∀ (m : SourceMap) (line col : Nat) (minified_name source : String),
      is_valid_javascript_identifier minified_name.data = false →
      m.get_original_function_name line col minified_name source = some none) ∧
    gofnFixedMap.get_original_function_name 0 23 "b" gofnSource
      = some (some "original_b") := by
  constructor
  · intro m line col minified_name source h
    simp [SourceMap.get_original_function_name, h]
  · decide

/-- Witness for C5 amended at a name that starts with a digit. -/
theorem claim5_witness :
    gofnSpecMap.get_original_function_name 0 22 "1x" gofnSource = some none :=
  claim5_amended_function_name.1 gofnSpecMap 0 22 "1x" gofnSource (by decide)

/-- The enumerated `(dst_line, dst_col, token_idx)` triples that
`SourceMap::new` sorts into the index. -/
def enumTriples (tokens : List RawToken) : List (Nat × Nat × Nat) :=
  tokens.enum.map fun p => (p.2.dst_line, p.2.dst_col, p.1)

/-- The index computed by `SourceMap::new`. -/
theorem new_index_eq (file : Option String) (tokens : List RawToken)
    (names sources : List String) (sc : Option (List (Option String))) :
    (SourceMap.new file tokens names sources sc).index
      = List.insertionSort tripleLe (enumTriples tokens) := rfl

/-- Only the index is computed; the other fields are stored as given. -/
theorem new_fields_eq (file : Option String) (tokens : List RawToken)
    (names sources : List String) (sc : Option (List (Option String))) :
    (SourceMap.new file tokens names sources sc).tokens = tokens ∧
    (SourceMap.new file tokens names sources sc).file = file ∧
    (SourceMap.new file tokens names sources sc).names = names ∧
    (SourceMap.new file tokens names sources sc).sources = sources ∧
    (SourceMap.new file tokens names sources sc).sources_content = sc.getD [] :=
  ⟨rfl, rfl, rfl, rfl, rfl⟩

/-- Membership in the enumerated triples characterised by the token list. -/
theorem enumTriples_mem_iff {tokens : List RawToken} {e : Nat × Nat × Nat} :
    e ∈ enumTriples tokens ↔
      ∃ t, tokens[e.2.2]? = some t ∧ e.1 = t.dst_line ∧ e.2.1 = t.dst_col := by
  constructor
  · intro h
    rw [enumTriples, List.mem_map] at h
    obtain ⟨⟨i, t⟩, hmem, hfe⟩ := h
    obtain ⟨hilen, hit⟩ := List.mem_enum hmem
    refine ⟨t, ?_, ?_, ?_⟩
    · rw [← hfe]
      simpa [List.getElem?_eq_getElem hilen] using hit.symm
    · rw [← hfe]
    · rw [← hfe]
  · rintro ⟨t, hget, h1, h2⟩
    obtain ⟨hlen, helem⟩ := List.getElem?_eq_some.mp hget
    have henum : (e.2.2, t) ∈ tokens.enum := by
      have : tokens.enum[e.2.2]? = some (e.2.2, t) := by
        rw [List.getElem?_enum, hget]
        rfl
      obtain ⟨h', h''⟩ := List.getElem?_eq_some.mp this
      exact h'' ▸ List.getElem_mem h'
    rw [enumTriples, List.mem_map]
    refine ⟨(e.2.2, t), henum, ?_⟩
    obtain ⟨ea, eb, ec⟩ := e
    simp only at h1 h2 ⊢
    simp [h1, h2]

/-- The third components of the enumerated triples are `0, 1, …`. -/
theorem enumTriples_thirds (tokens : List RawToken) :
    (enumTriples tokens).map (fun e => e.2.2) = List.range tokens.length := by
  rw [enumTriples, List.map_map]
  exact List.enum_map_fst tokens

/-- The computed index is sorted by the full triple order. -/
theorem index_sorted (tokens : List RawToken) :
    List.Pairwise tripleLe (List.insertionSort tripleLe (enumTriples tokens)) :=
  List.sorted_insertionSort tripleLe (enumTriples tokens)

/-- The computed index is a permutation of the enumerated triples. -/
theorem index_perm (tokens : List RawToken) :
    (List.insertionSort tripleLe (enumTriples tokens)).Perm (enumTriples tokens) :=
  List.perm_insertionSort tripleLe (enumTriples tokens)

/-- The computed index has no duplicate entries (their third components are
pairwise distinct). -/
theorem index_nodup (tokens : List RawToken) :
    (List.insertionSort tripleLe (enumTriples tokens)).Nodup := by
  have h1 : (enumTriples tokens).Nodup := by
    refine List.Nodup.of_map (fun e => e.2.2) ?_
    rw [enumTriples_thirds]
    exact List.nodup_range tokens.length
  exact ((index_perm tokens).nodup_iff).mpr h1

/-- `posLe` is the complement of the flipped `posLt`. -/
theorem posLe_iff_not_posLt (a b : Nat × Nat) : posLe a b ↔ ¬ posLt b a := by
  unfold posLe posLt; omega

/-- Every sorted index splits at some `n`: the entries with generated
position at or before the query are exactly those before `n`. -/
theorem sorted_cut (line col : Nat) :
    ∀ (l : List (Nat × Nat × Nat)), List.Pairwise tripleLe l →
      ∃ n ≤ l.length, ∀ i (h : i < l.length),
        (i < n ↔ ¬ posLt (line, col) ((l[i]).1, (l[i]).2.1)) := by
  intro l
  induction l with
  | nil => exact fun _ => ⟨0, Nat.le_refl 0, fun i h => absurd h (by simp)⟩
  | cons e rest ih =>
    intro hp
    rw [List.pairwise_cons] at hp
    obtain ⟨hhead, hrest⟩ := hp
    obtain ⟨n, hn, hiff⟩ := ih hrest
    by_cases hP : posLt (line, col) (e.1, e.2.1)
    · refine ⟨0, Nat.zero_le _, fun i h => ?_⟩
      constructor
      · intro h0; omega
      · intro hnot
        exfalso
        apply hnot
        match i, h with
        | 0, _ => exact hP
        | i + 1, h =>
          have hlen : i < rest.length := by simpa using h
          have hmem : rest[i] ∈ rest := List.getElem_mem hlen
          have htr := hhead rest[i] hmem
          have hcons : (e :: rest)[i + 1] = rest[i] := by simp
          rw [hcons]
          unfold tripleLe at htr
          unfold posLt at hP ⊢
          omega
    · refine ⟨n + 1, by simpa using Nat.succ_le_succ hn, fun i h => ?_⟩
      match i, h with
      | 0, _ => simpa using hP
      | i + 1, h =>
        have hlen : i < rest.length := by simpa using h
        have hiff2 := hiff i hlen
        have hcons : (e :: rest)[i + 1] = rest[i] := by simp
        rw [hcons]
        constructor
        · intro hlt
          exact hiff2.mp (by omega)
        · intro hq
          have := hiff2.mpr hq
          omega

/-- The binary-search loop lands exactly on the cut point. -/
theorem bsearchLow_spec (index : List (Nat × Nat × Nat)) (line col : Nat) (n : Nat)
    (hiff : ∀ i (h : i < index.length),
      (i < n ↔ ¬ posLt (line, col) ((index[i]).1, (index[i]).2.1))) :
    ∀ fuel low high, low ≤ n → n ≤ high → high ≤ index.length → high - low ≤ fuel →
      bsearchLow index line col fuel low high = n := by
  intro fuel
  induction fuel with
  | zero =>
    intro low high h1 h2 h3 h4
    rw [bsearchLow]
    omega
  | succ fuel ih =>
    intro low high h1 h2 h3 h4
    rw [bsearchLow]
    by_cases hlh : low < high
    · rw [if_pos hlh]
      have hmlt : (low + high) / 2 < high := by omega
      have hmge : low ≤ (low + high) / 2 := by omega
      have hmlen : (low + high) / 2 < index.length := by omega
      have hgetD : index.getD ((low + high) / 2) (0, 0, 0) = index[(low + high) / 2] := by
        rw [List.getD_eq_getElem?_getD, List.getElem?_eq_getElem hmlen]
        rfl
      simp only [hgetD]
      by_cases hplt : posLt (line, col) ((index[(low + high) / 2]).1, (index[(low + high) / 2]).2.1)
      · rw [if_pos hplt]
        have hnm : n ≤ (low + high) / 2 := by
          by_contra hc
          push_neg at hc
          exact ((hiff _ hmlen).mp (by omega)) hplt
        exact ih low _ h1 hnm (by omega) (by omega)
      · rw [if_neg hplt]
        have hnm : (low + high) / 2 < n := (hiff _ hmlen).mpr hplt
        exact ih _ high (by omega) h2 h3 (by omega)
    · rw [if_neg hlh]
      omega

/-- C8: the lookup index built by `SourceMap::new` is sorted lexicographically
by `(dst_line, dst_col)`, contains exactly one entry per token (its token
indices are a permutation of `0 .. token count`, and every entry carries the
position of its token), entries with duplicate positions appear in insertion
order, and the mutating operations available on a finalized map (`set_file`,
`remove_names`, `set_source`, `set_source_contents`) leave the index
unchanged. -/
theorem claim8_index_invariants :
    ∀ (file : Option String) (tokens : List RawToken) (names sources : List String)
      (sc : Option (List (Option String))) (m : SourceMap),
      m = SourceMap.new file tokens names sources sc →
      List.Pairwise posLe (m.index.map (fun e => (e.1, e.2.1))) ∧
      (m.index.map (fun e => e.2.2)).Perm (List.range tokens.length) ∧
      (∀ (i j : Nat) (ei ej : Nat × Nat × Nat), i < j →
        m.index[i]? = some ei → m.index[j]? = some ej →
        ei.1 = ej.1 → ei.2.1 = ej.2.1 → ei.2.2 < ej.2.2) ∧
      (∀ e ∈ m.index, ∃ t, tokens[e.2.2]? = some t ∧
        e.1 = t.dst_line ∧ e.2.1 = t.dst_col) ∧
      (∀ v, (m.set_file v).index = m.index) ∧
      m.remove_names.index = m.index ∧
      (∀ i s, (m.set_source i s).index = m.index) ∧
      (∀ i c, (m.set_source_contents i c).index = m.index) := by
  rintro file tokens names sources sc m rfl
  rw [new_index_eq]
  refine ⟨?_, ?_, ?_, ?_, fun v => rfl, rfl, fun i s => rfl, fun i c => rfl⟩
  · exact List.Pairwise.map _ (fun a b hab => by
      unfold tripleLe at hab; unfold posLe; omega) (index_sorted tokens)
  · have h1 := (index_perm tokens).map (fun e => e.2.2)
    rw [enumTriples_thirds] at h1
    exact h1
  · intro i j ei ej hij hgi hgj h1 h2
    obtain ⟨hi, hei⟩ := List.getElem?_eq_some.mp hgi
    obtain ⟨hj, hej⟩ := List.getElem?_eq_some.mp hgj
    have htr := List.pairwise_iff_getElem.mp (index_sorted tokens) i j hi hj hij
    rw [hei, hej] at htr
    have hle : ei.2.2 ≤ ej.2.2 := by
      unfold tripleLe at htr; omega
    rcases Nat.lt_or_ge ei.2.2 ej.2.2 with h | h
    · exact h
    · exfalso
      have heq : ei = ej := by
        obtain ⟨a1, b1, c1⟩ := ei
        obtain ⟨a2, b2, c2⟩ := ej
        simp only at h1 h2 hle h
        have : c1 = c2 := by omega
        simp [h1, h2, this]
      have : i = j := by
        have hnd := index_nodup tokens
        exact (hnd.getElem_inj_iff).mp (by rw [hei, hej, heq])
      omega
  · intro e he
    exact enumTriples_mem_iff.mp (((index_perm tokens).mem_iff).mp he)

/-- Witness for C8 on a two-token map with duplicate positions: the index
entries at positions 0 and 1 share the generated position and keep the token
order, and the later entry points at the later token. -/
theorem claim8_witness :
    (((0, 0, 0) : Nat × Nat × Nat)).2.2 < (((0, 0, 1) : Nat × Nat × Nat)).2.2 ∧
    (∃ t, [(⟨0, 0, 0, 0, SENTINEL, SENTINEL⟩ : RawToken),
        ⟨0, 0, 1, 1, SENTINEL, SENTINEL⟩][(((0, 0, 1) : Nat × Nat × Nat)).2.2]? = some t ∧
      (((0, 0, 1) : Nat × Nat × Nat)).1 = t.dst_line ∧
      (((0, 0, 1) : Nat × Nat × Nat)).2.1 = t.dst_col) :=
  ⟨(claim8_index_invariants none
      [⟨0, 0, 0, 0, SENTINEL, SENTINEL⟩, ⟨0, 0, 1, 1, SENTINEL, SENTINEL⟩] [] [] none
      _ rfl).2.2.1 0 1 (0, 0, 0) (0, 0, 1)
      (by decide) (by decide) (by decide) (by decide) (by decide),
   (claim8_index_invariants none
      [⟨0, 0, 0, 0, SENTINEL, SENTINEL⟩, ⟨0, 0, 1, 1, SENTINEL, SENTINEL⟩] [] [] none
      _ rfl).2.2.2.1 (0, 0, 1) (by decide)⟩

/-- C3: on a finalized map, `lookup_token(L, C)` returns none exactly when no
token's generated position is lexicographically at or before `(L, C)`, and
otherwise returns a token of the map whose position is at or before `(L, C)`
and which dominates — in the `(dst_line, dst_col, insertion index)` order —
every token whose position is at or before `(L, C)`: the greatest position
wins and ties favor the later token. -/
theorem claim3_lookup_greatest :
    ∀ (file : Option String) (tokens : List RawToken) (names sources : List String)
      (sc : Option (List (Option String))) (m : SourceMap) (L C : Nat),
      m = SourceMap.new file tokens names sources sc →
      (m.lookup_token L C = none ↔
        ∀ (j : Nat) (t : RawToken), tokens[j]? = some t →
          ¬ posLe (t.dst_line, t.dst_col) (L, C)) ∧
      (∀ tok : Token, m.lookup_token L C = some tok →
        tokens[tok.idx]? = some tok.raw ∧
        posLe (tok.raw.dst_line, tok.raw.dst_col) (L, C) ∧
        ∀ (j : Nat) (u : RawToken), tokens[j]? = some u →
          posLe (u.dst_line, u.dst_col) (L, C) →
          tripleLe (u.dst_line, u.dst_col, j)
            (tok.raw.dst_line, tok.raw.dst_col, tok.idx)) := by
  rintro file tokens names sources sc m L C rfl
  obtain ⟨n, hn, hiff⟩ := sorted_cut L C _ (index_sorted tokens)
  have hbs := bsearchLow_spec _ L C n hiff
    (List.insertionSort tripleLe (enumTriples tokens)).length 0
    (List.insertionSort tripleLe (enumTriples tokens)).length
    (Nat.zero_le n) hn (Nat.le_refl _) (by omega)
  have hlook : (SourceMap.new file tokens names sources sc).lookup_token L C =
      (if 0 < n ∧ n ≤ (List.insertionSort tripleLe (enumTriples tokens)).length then
        (SourceMap.new file tokens names sources sc).get_token
          (((List.insertionSort tripleLe (enumTriples tokens)).getD (n - 1) (0, 0, 0)).2.2)
      else none) := by
    simp only [SourceMap.lookup_token, new_index_eq, hbs]
  rcases Nat.eq_zero_or_pos n with hz | hpos
  · subst hz
    have hnone : (SourceMap.new file tokens names sources sc).lookup_token L C = none := by
      rw [hlook]
      simp
    have hout : ∀ (j : Nat) (t : RawToken), tokens[j]? = some t →
        ¬ posLe (t.dst_line, t.dst_col) (L, C) := by
      intro j t hget
      have hmemE : (t.dst_line, t.dst_col, j) ∈ enumTriples tokens :=
        enumTriples_mem_iff.mpr ⟨t, hget, rfl, rfl⟩
      have hmemI : (t.dst_line, t.dst_col, j)
          ∈ List.insertionSort tripleLe (enumTriples tokens) :=
        ((index_perm tokens).mem_iff).mpr hmemE
      obtain ⟨k, hk, hke⟩ := List.mem_iff_getElem.mp hmemI
      have := (hiff k hk).not
      rw [posLe_iff_not_posLt]
      intro hcon
      apply hcon
      have hklt : ¬ k < 0 := by omega
      have hplt := not_not.mp (this.mp hklt)
      rw [hke] at hplt
      exact hplt
    constructor
    · exact ⟨fun _ => hout, fun _ => hnone⟩
    · intro tok htok
      rw [hnone] at htok
      exact absurd htok (by simp)
  · have hcond : 0 < n ∧ n ≤ (List.insertionSort tripleLe (enumTriples tokens)).length :=
      ⟨hpos, hn⟩
    have hlen : n - 1 < (List.insertionSort tripleLe (enumTriples tokens)).length := by omega
    have hgetD : (List.insertionSort tripleLe (enumTriples tokens)).getD (n - 1) (0, 0, 0)
        = (List.insertionSort tripleLe (enumTriples tokens))[n - 1] := by
      rw [List.getD_eq_getElem?_getD, List.getElem?_eq_getElem hlen]
      rfl
    have hmemI : (List.insertionSort tripleLe (enumTriples tokens))[n - 1]
        ∈ List.insertionSort tripleLe (enumTriples tokens) := List.getElem_mem hlen
    have hmemE : (List.insertionSort tripleLe (enumTriples tokens))[n - 1]
        ∈ enumTriples tokens := ((index_perm tokens).mem_iff).mp hmemI
    obtain ⟨t, hgt, h1, h2⟩ := enumTriples_mem_iff.mp hmemE
    have hgettok : (SourceMap.new file tokens names sources sc).get_token
        ((List.insertionSort tripleLe (enumTriples tokens))[n - 1]).2.2
        = some ⟨t, SourceMap.new file tokens names sources sc,
            ((List.insertionSort tripleLe (enumTriples tokens))[n - 1]).2.2⟩ := by
      simp only [SourceMap.get_token]
      rw [show (SourceMap.new file tokens names sources sc).tokens = tokens from rfl, hgt]
      rfl
    have hsome : (SourceMap.new file tokens names sources sc).lookup_token L C
        = some ⟨t, SourceMap.new file tokens names sources sc,
            ((List.insertionSort tripleLe (enumTriples tokens))[n - 1]).2.2⟩ := by
      rw [hlook, if_pos hcond, hgetD]
      exact hgettok
    have hposle : posLe (t.dst_line, t.dst_col) (L, C) := by
      have hnp := (hiff (n - 1) hlen).mp (by omega)
      rw [h1, h2] at hnp
      rw [posLe_iff_not_posLt]
      exact hnp
    constructor
    · constructor
      · intro hchaos
        rw [hsome] at hchaos
        exact absurd hchaos (by simp)
      · intro hall
        exact absurd hposle (hall _ t hgt)
    · intro tok htok
      rw [hsome] at htok
      have htokeq := Option.some.inj htok
      cases htokeq
      refine ⟨hgt, hposle, ?_⟩
      intro j u hgu hule
      have hmemEu : (u.dst_line, u.dst_col, j) ∈ enumTriples tokens :=
        enumTriples_mem_iff.mpr ⟨u, hgu, rfl, rfl⟩
      have hmemIu : (u.dst_line, u.dst_col, j)
          ∈ List.insertionSort tripleLe (enumTriples tokens) :=
        ((index_perm tokens).mem_iff).mpr hmemEu
      obtain ⟨k, hk, hke⟩ := List.mem_iff_getElem.mp hmemIu
      have hkn : k < n := by
        rw [hiff k hk, hke]
        rw [posLe_iff_not_posLt] at hule
        exact hule
      show tripleLe (u.dst_line, u.dst_col, j)
        ((t.dst_line : Nat), t.dst_col,
          ((List.insertionSort tripleLe (enumTriples tokens))[n - 1]).2.2)
      have hgoal_e : ((t.dst_line : Nat), t.dst_col,
          ((List.insertionSort tripleLe (enumTriples tokens))[n - 1]).2.2)
          = (List.insertionSort tripleLe (enumTriples tokens))[n - 1] := by
        rw [← h1, ← h2]
      rw [hgoal_e]
      rcases Nat.lt_or_ge k (n - 1) with hklt | hkge
      · have hp := List.pairwise_iff_getElem.mp (index_sorted tokens) k (n - 1) hk hlen hklt
        rw [hke] at hp
        exact hp
      · have hkeq : k = n - 1 := by omega
        subst hkeq
        rw [← hke]
        unfold tripleLe
        omega

/-- A two-token map used to witness the lookup characterization. -/
def c3WitMap : SourceMap :=
  SourceMap.new none
    [⟨0, 0, 0, 0, SENTINEL, SENTINEL⟩, ⟨0, 5, 0, 0, SENTINEL, SENTINEL⟩] [] [] none

/-- The token that `lookup_token(0, 3)` returns on `c3WitMap`. -/
def c3WitTok : Token := ⟨⟨0, 0, 0, 0, SENTINEL, SENTINEL⟩, c3WitMap, 0⟩

/-- Witness for C3: on the concrete two-token map, the token returned at
query `(0, 3)` is the map's token 0 and its position is at or before the
query. -/
theorem claim3_witness :
    [(⟨0, 0, 0, 0, SENTINEL, SENTINEL⟩ : RawToken),
      ⟨0, 5, 0, 0, SENTINEL, SENTINEL⟩][c3WitTok.idx]? = some c3WitTok.raw ∧
    posLe (c3WitTok.raw.dst_line, c3WitTok.raw.dst_col) (0, 3) :=
  ⟨((claim3_lookup_greatest none
      [⟨0, 0, 0, 0, SENTINEL, SENTINEL⟩, ⟨0, 5, 0, 0, SENTINEL, SENTINEL⟩] [] [] none
      c3WitMap 0 3 rfl).2 c3WitTok (by decide)).1,
   ((claim3_lookup_greatest none
      [⟨0, 0, 0, 0, SENTINEL, SENTINEL⟩, ⟨0, 5, 0, 0, SENTINEL, SENTINEL⟩] [] [] none
      c3WitMap 0 3 rfl).2 c3WitTok (by decide)).2.1⟩

/-- The observable form of a raw token inside a map: its coordinates plus the
source string, name string and source contents it refers to — exactly the
data the builder-driven pipelines (`rewrite`, `flatten`) read from it. -/
structure ObsTok where
  dst_line : Nat
  dst_col : Nat
  src_line : Nat
  src_col : Nat
  src : Option String
  name : Option String
  cont : Option String
deriving Repr, DecidableEq

/-- Observable form of a raw token of a map. -/
def tokenObs (m : SourceMap) (t : RawToken) : ObsTok :=
  ⟨t.dst_line, t.dst_col, t.src_line, t.src_col,
   (if t.src_id = SENTINEL then none else m.sources[t.src_id]?),
   (if t.name_id = SENTINEL then none else m.names[t.name_id]?),
   m.get_source_contents t.src_id⟩

/-- The name a pipeline forwards: dropped when `with_names` is false. -/
def effName (wn : Bool) (o : ObsTok) : Option String := if wn then o.name else none

/-- The source strings of a token stream, in order of occurrence. -/
def obsSrcs (L : List ObsTok) : List String := L.filterMap (fun o => o.src)

/-- The forwarded name strings of a token stream, in order of occurrence. -/
def obsNames (wn : Bool) (L : List ObsTok) : List String := L.filterMap (effName wn)

/-- First occurrences of a string list, left to right, starting from `acc`. -/
def firstOccsFrom (acc : List String) : List String → List String
  | [] => acc
  | s :: rest => firstOccsFrom (if s ∈ acc then acc else acc ++ [s]) rest

/-- The distinct strings of a list in first-occurrence order: the contents of
an insertion-order interning table fed with the list. -/
def firstOccs (l : List String) : List String := firstOccsFrom [] l

/-- The id an interning table assigns: the index of the string, or the `!0`
sentinel for an absent one. -/
def optIdx (l : List String) : Option String → Nat
  | none => SENTINEL
  | some s => l.findIdx (· = s)

/-- The raw token a pipeline emits for an observable token, given the final
source and name tables. -/
def tokOf (wn : Bool) (S N : List String) (o : ObsTok) : RawToken :=
  ⟨o.dst_line, o.dst_col, o.src_line, o.src_col, optIdx S o.src,
   optIdx N (effName wn o)⟩

/-- The source contents a pipeline ends up storing for a source string: the
first non-absent contents among the stream's occurrences of that source. -/
def srcBucket (L : List ObsTok) (s : String) : Option String :=
  (L.filter (fun o => o.src = some s)).findSome? (fun o => o.cont)

/-- One step of the builder-driven pipelines: add the observable token, then
copy its contents when the guard allows (`gs` requests the `src_id != !0`
check of `rewrite`; `flatten` copies unguarded, `wsc` is
`with_source_contents`). -/
def ingestStep (wn gs wsc : Bool) (b : SourceMapBuilder) (o : ObsTok) :
    SourceMapBuilder :=
  let rb := b.add o.dst_line o.dst_col o.src_line o.src_col o.src (effName wn o)
  if (gs = false ∨ rb.1.src_id ≠ SENTINEL) ∧ wsc = true ∧
      rb.2.has_source_contents rb.1.src_id = false then
    rb.2.set_source_contents rb.1.src_id o.cont
  else rb.2

/-- A pipeline run over a whole stream. -/
def ingest (wn gs wsc : Bool) (b : SourceMapBuilder) (L : List ObsTok) :
    SourceMapBuilder :=
  L.foldl (ingestStep wn gs wsc) b

/-- `firstOccsFrom` distributes over append. -/
theorem firstOccsFrom_append (l1 l2 : List String) :
    ∀ acc, firstOccsFrom acc (l1 ++ l2) = firstOccsFrom (firstOccsFrom acc l1) l2 := by
  induction l1 with
  | nil => intro acc; rfl
  | cons s rest ih =>
    intro acc
    simp only [List.cons_append, firstOccsFrom]
    exact ih _

/-- Appending one string to the interned list. -/
theorem firstOccs_snoc (l : List String) (s : String) :
    firstOccs (l ++ [s])
      = (if s ∈ firstOccs l then firstOccs l else firstOccs l ++ [s]) := by
  rw [firstOccs, firstOccsFrom_append]
  rfl

/-- Membership in `firstOccsFrom`. -/
theorem mem_firstOccsFrom (s : String) :
    ∀ (l acc : List String), (s ∈ firstOccsFrom acc l ↔ s ∈ acc ∨ s ∈ l) := by
  intro l
  induction l with
  | nil => intro acc; simp [firstOccsFrom]
  | cons t rest ih =>
    intro acc
    rw [firstOccsFrom, ih]
    by_cases ht : t ∈ acc
    · rw [if_pos ht]
      constructor
      · rintro (h | h)
        · exact Or.inl h
        · exact Or.inr (List.mem_cons_of_mem t h)
      · rintro (h | h)
        · exact Or.inl h
        · rcases List.mem_cons.mp h with rfl | h
          · exact Or.inl ht
          · exact Or.inr h
    · rw [if_neg ht]
      simp only [List.mem_append, List.mem_singleton, List.mem_cons]
      tauto

/-- Membership in the interned list. -/
theorem mem_firstOccs (s : String) (l : List String) :
    s ∈ firstOccs l ↔ s ∈ l := by
  rw [firstOccs, mem_firstOccsFrom]
  simp

/-- `firstOccsFrom` grows by at most the processed length. -/
theorem firstOccsFrom_length (l : List String) :
    ∀ acc, (firstOccsFrom acc l).length ≤ acc.length + l.length := by
  induction l with
  | nil => intro acc; simp [firstOccsFrom]
  | cons s rest ih =>
    intro acc
    rw [firstOccsFrom]
    by_cases hs : s ∈ acc
    · rw [if_pos hs]
      have := ih acc
      simp only [List.length_cons]
      omega
    · rw [if_neg hs]
      have := ih (acc ++ [s])
      simp only [List.length_append, List.length_cons, List.length_nil,
        List.length_singleton] at this ⊢
      omega

/-- The interned list is no longer than its input. -/
theorem firstOccs_length (l : List String) : (firstOccs l).length ≤ l.length := by
  have := firstOccsFrom_length l []
  simpa [firstOccs] using this

/-- `firstOccsFrom` preserves distinctness. -/
theorem firstOccsFrom_nodup (l : List String) :
    ∀ acc, acc.Nodup → (firstOccsFrom acc l).Nodup := by
  induction l with
  | nil => intro acc h; exact h
  | cons s rest ih =>
    intro acc h
    rw [firstOccsFrom]
    by_cases hs : s ∈ acc
    · rw [if_pos hs]; exact ih acc h
    · rw [if_neg hs]
      refine ih (acc ++ [s]) ?_
      refine List.Nodup.append h (List.nodup_singleton s) ?_
      intro x hx hxs
      rcases List.mem_singleton.mp hxs with rfl
      exact hs hx

/-- The interned list has no duplicates. -/
theorem firstOccs_nodup (l : List String) : (firstOccs l).Nodup :=
  firstOccsFrom_nodup l [] List.nodup_nil

/-- An index found in the left part of an append stays put. -/
theorem findIdx_append_of_mem {s : String} :
    ∀ {l1 : List String} (l2 : List String), s ∈ l1 →
      (l1 ++ l2).findIdx (· = s) = l1.findIdx (· = s) := by
  intro l1
  induction l1 with
  | nil => intro l2 h; exact absurd h (List.not_mem_nil s)
  | cons t rest ih =>
    intro l2 h
    rw [List.cons_append, List.findIdx_cons, List.findIdx_cons]
    by_cases ht : t = s
    · rw [decide_eq_true ht]
      rfl
    · rw [decide_eq_false ht]
      simp only [Bool.cond_false]
      rcases List.mem_cons.mp h with rfl | hmem
      · exact absurd rfl ht
      · rw [ih l2 hmem]

/-- A string appended to a list not containing it is found at the old
length. -/
theorem findIdx_append_self {s : String} :
    ∀ {l : List String}, s ∉ l → (l ++ [s]).findIdx (· = s) = l.length := by
  intro l
  induction l with
  | nil =>
    intro _
    rw [List.nil_append, List.findIdx_cons, decide_eq_true rfl]
    rfl
  | cons t rest ih =>
    intro h
    rw [List.cons_append, List.findIdx_cons]
    have ht : t ≠ s := fun he => h (he ▸ List.mem_cons_self t rest)
    rw [decide_eq_false ht]
    simp only [Bool.cond_false]
    rw [ih (fun hm => h (List.mem_cons_of_mem t hm))]
    rfl

/-- The element at the found index. -/
theorem getElem?_findIdx {s : String} :
    ∀ {l : List String}, s ∈ l → l[l.findIdx (· = s)]? = some s := by
  intro l
  induction l with
  | nil => intro h; exact absurd h (List.not_mem_nil s)
  | cons t rest ih =>
    intro h
    rw [List.findIdx_cons]
    by_cases ht : t = s
    · rw [decide_eq_true ht]
      simp [ht]
    · rw [decide_eq_false ht]
      simp only [Bool.cond_false]
      rcases List.mem_cons.mp h with rfl | hmem
      · exact absurd rfl ht
      · simpa using ih hmem

/-- The found index of a member is in range. -/
theorem findIdx_lt_of_mem {s : String} {l : List String} (h : s ∈ l) :
    l.findIdx (· = s) < l.length :=
  List.findIdx_lt_length_of_exists ⟨s, h, by simp⟩

/-- Interning a string into an interned list lands at the interned list of
the extended input. -/
theorem internStr_snoc (l : List String) (s : String) :
    internStr (firstOccs l) s
      = ((firstOccs (l ++ [s])).findIdx (· = s), firstOccs (l ++ [s])) := by
  rw [internStr, firstOccs_snoc]
  by_cases h : s ∈ firstOccs l
  · rw [if_pos h, if_pos h]
  · rw [if_neg h, if_neg h, findIdx_append_self h]

/-- `optIdx` of a member is stable under extending the table. -/
theorem optIdx_append (S ext : List String) (os : Option String)
    (h : ∀ s, os = some s → s ∈ S) : optIdx (S ++ ext) os = optIdx S os := by
  cases os with
  | none => rfl
  | some s => exact findIdx_append_of_mem ext (h s rfl)

/-- The sources of an extended stream. -/
theorem obsSrcs_snoc (P : List ObsTok) (o : ObsTok) :
    obsSrcs (P ++ [o]) = obsSrcs P ++ o.src.toList := by
  rw [obsSrcs, obsSrcs, List.filterMap_append]
  cases h : o.src <;> simp [List.filterMap_cons, h]

/-- The forwarded names of an extended stream. -/
theorem obsNames_snoc (wn : Bool) (P : List ObsTok) (o : ObsTok) :
    obsNames wn (P ++ [o]) = obsNames wn P ++ (effName wn o).toList := by
  rw [obsNames, obsNames, List.filterMap_append]
  cases h : effName wn o <;> simp [h]

/-- A stream extension by a sourceless token does not change any bucket. -/
theorem srcBucket_snoc_none (P : List ObsTok) (o : ObsTok) (h : o.src = none)
    (s : String) : srcBucket (P ++ [o]) s = srcBucket P s := by
  rw [srcBucket, srcBucket, List.filter_append]
  have : List.filter (fun x => x.src = some s) [o] = [] := by
    simp [List.filter_cons, h]
  rw [this, List.append_nil]

/-- A stream extension by a token of another source does not change a
bucket. -/
theorem srcBucket_snoc_other (P : List ObsTok) (o : ObsTok) (s : String)
    (h : o.src ≠ some s) : srcBucket (P ++ [o]) s = srcBucket P s := by
  rw [srcBucket, srcBucket, List.filter_append]
  have : List.filter (fun x => x.src = some s) [o] = [] := by
    simp only [List.filter_cons, List.filter_nil]
    rw [if_neg (by simpa using h)]
  rw [this, List.append_nil]

/-- A stream extension by a token of the same source appends to the bucket
candidates. -/
theorem srcBucket_snoc_same (P : List ObsTok) (o : ObsTok) (s : String)
    (h : o.src = some s) :
    srcBucket (P ++ [o]) s = (srcBucket P s).or o.cont := by
  rw [srcBucket, srcBucket, List.filter_append]
  have : List.filter (fun x => x.src = some s) [o] = [o] := by
    simp [List.filter_cons, h]
  rw [this, List.findSome?_append]
  congr 1
  rw [List.findSome?_cons]
  cases o.cont <;> rfl

/-- A source string outside a stream has an empty bucket. -/
theorem srcBucket_not_mem (P : List ObsTok) (s : String)
    (h : s ∉ obsSrcs P) : srcBucket P s = none := by
  rw [srcBucket]
  have : P.filter (fun o => o.src = some s) = [] := by
    rw [List.filter_eq_nil_iff]
    intro o ho hs
    exact h (List.mem_filterMap.mpr ⟨o, ho, by simpa using hs⟩)
  rw [this]
  rfl

/-- Interning an optional string into an interned table. -/
theorem internOpt_firstOccs (l : List String) (os : Option String) :
    internOpt (firstOccs l) os
      = (optIdx (firstOccs (l ++ os.toList)) os, firstOccs (l ++ os.toList)) := by
  cases os with
  | none => simp [internOpt, optIdx, List.append_nil]
  | some s => rw [internOpt]; exact internStr_snoc l s

/-- `set_source_contents` only touches the contents list. -/
theorem set_source_contents_frame (b : SourceMapBuilder) (i : Nat) (v : Option String) :
    (b.set_source_contents i v).file = b.file ∧
    (b.set_source_contents i v).tokens = b.tokens ∧
    (b.set_source_contents i v).sources = b.sources ∧
    (b.set_source_contents i v).names = b.names := by
  rw [SourceMapBuilder.set_source_contents]
  by_cases h : i = SENTINEL
  · rw [if_pos h]; exact ⟨rfl, rfl, rfl, rfl⟩
  · rw [if_neg h]
    by_cases h2 : b.sources.length > b.source_contents.length
    · rw [if_pos h2]; exact ⟨rfl, rfl, rfl, rfl⟩
    · rw [if_neg h2]; exact ⟨rfl, rfl, rfl, rfl⟩

/-- The sources of a stream are at most as many as its tokens. -/
theorem obsSrcs_length_le (P : List ObsTok) : (obsSrcs P).length ≤ P.length :=
  List.length_filterMap_le _ P

/-- The invariant the builder-driven pipelines maintain: after ingesting the
stream prefix `P` from a fresh builder, the builder holds the interned source
and name tables of `P`, the re-indexed tokens of `P`, and (when contents are
kept) one bucket per source holding the first non-absent contents among that
source's occurrences. -/
def builderInv (wn wsc : Bool) (file : Option String) (P : List ObsTok)
    (b : SourceMapBuilder) : Prop :=
  b.file = file ∧
  b.sources = firstOccs (obsSrcs P) ∧
  b.names = firstOccs (obsNames wn P) ∧
  b.tokens = P.map (tokOf wn (firstOccs (obsSrcs P)) (firstOccs (obsNames wn P))) ∧
  b.source_contents.length = (if wsc then (firstOccs (obsSrcs P)).length else 0) ∧
  (∀ (j : Nat) (s : String), (firstOccs (obsSrcs P))[j]? = some s → wsc = true →
    b.source_contents[j]? = some (srcBucket P s))

/-- One ingestion step preserves the builder invariant (the size bound keeps
interned ids clear of the `!0` sentinel). -/
theorem ingest_step_inv (wn gs wsc : Bool) (file : Option String)
    (P : List ObsTok) (o : ObsTok) (b : SourceMapBuilder)
    (hsize : P.length + 1 < SENTINEL)
    (hinv : builderInv wn wsc file P b) :
    builderInv wn wsc file (P ++ [o]) (ingestStep wn gs wsc b o) := by
  obtain ⟨hfile, hsrcs, hnames, htoks, hclen, hcget⟩ := hinv
  have hadd : b.add o.dst_line o.dst_col o.src_line o.src_col o.src (effName wn o)
      = (⟨o.dst_line, o.dst_col, o.src_line, o.src_col,
          optIdx (firstOccs (obsSrcs (P ++ [o]))) o.src,
          optIdx (firstOccs (obsNames wn (P ++ [o]))) (effName wn o)⟩,
         { file := b.file,
           tokens := b.tokens ++ [⟨o.dst_line, o.dst_col, o.src_line, o.src_col,
             optIdx (firstOccs (obsSrcs (P ++ [o]))) o.src,
             optIdx (firstOccs (obsNames wn (P ++ [o]))) (effName wn o)⟩],
           names := firstOccs (obsNames wn (P ++ [o])),
           sources := firstOccs (obsSrcs (P ++ [o])),
           source_contents := b.source_contents }) := by
    simp only [SourceMapBuilder.add, hsrcs, hnames, internOpt_firstOccs,
      ← obsSrcs_snoc, ← obsNames_snoc]
  have hS'ext : ∃ ext, firstOccs (obsSrcs (P ++ [o]))
      = firstOccs (obsSrcs P) ++ ext := by
    rw [obsSrcs_snoc]
    cases h : o.src with
    | none => exact ⟨[], by simp⟩
    | some s =>
      simp only [Option.toList]
      rw [firstOccs_snoc]
      by_cases hm : s ∈ firstOccs (obsSrcs P)
      · exact ⟨[], by rw [if_pos hm, List.append_nil]⟩
      · exact ⟨[s], by rw [if_neg hm]⟩
  have hN'ext : ∃ ext, firstOccs (obsNames wn (P ++ [o]))
      = firstOccs (obsNames wn P) ++ ext := by
    rw [obsNames_snoc]
    cases h : effName wn o with
    | none => exact ⟨[], by simp⟩
    | some s =>
      simp only [Option.toList]
      rw [firstOccs_snoc]
      by_cases hm : s ∈ firstOccs (obsNames wn P)
      · exact ⟨[], by rw [if_pos hm, List.append_nil]⟩
      · exact ⟨[s], by rw [if_neg hm]⟩
  have htokstable : P.map (tokOf wn (firstOccs (obsSrcs P)) (firstOccs (obsNames wn P)))
      = P.map (tokOf wn (firstOccs (obsSrcs (P ++ [o])))
          (firstOccs (obsNames wn (P ++ [o])))) := by
    obtain ⟨ext, hext⟩ := hS'ext
    obtain ⟨extN, hextN⟩ := hN'ext
    rw [hext, hextN]
    refine List.map_congr_left ?_
    intro o' ho'
    simp only [tokOf]
    rw [optIdx_append _ ext o'.src ?_, optIdx_append _ extN (effName wn o') ?_]
    · intro s hs
      exact (mem_firstOccs s _).mpr (List.mem_filterMap.mpr ⟨o', ho', by rw [hs]⟩)
    · intro s hs
      exact (mem_firstOccs s _).mpr (List.mem_filterMap.mpr ⟨o', ho', by rw [hs]⟩)
  have htokens_new : (P ++ [o]).map (tokOf wn (firstOccs (obsSrcs (P ++ [o])))
      (firstOccs (obsNames wn (P ++ [o]))))
      = b.tokens ++ [⟨o.dst_line, o.dst_col, o.src_line, o.src_col,
          optIdx (firstOccs (obsSrcs (P ++ [o]))) o.src,
          optIdx (firstOccs (obsNames wn (P ++ [o]))) (effName wn o)⟩] := by
    rw [List.map_append, htoks, htokstable]
    rfl
  rw [ingestStep]
  simp only [hadd]
  cases wsc with
  | false =>
    -- contents are not kept: the guard never fires
    rw [if_neg (by simp)]
    refine ⟨hfile, rfl, rfl, htokens_new.symm, ?_, ?_⟩
    · rw [hclen]
      simp
    · intro j s hjs hw
      exact absurd hw (by simp)
  | true =>
    rcases hosrc : o.src with _ | s
    · -- sourceless token: the guard may fire but recording under the
      -- sentinel id is a no-op either way
      rw [hosrc] at htokens_new
      have hSeq : firstOccs (obsSrcs (P ++ [o])) = firstOccs (obsSrcs P) := by
        rw [obsSrcs_snoc, hosrc]
        simp
      have hid : optIdx (firstOccs (obsSrcs (P ++ [o]))) none = SENTINEL := rfl
      rw [hid]
      have hres : ∀ (bb : SourceMapBuilder),
          bb.set_source_contents SENTINEL o.cont = bb := by
        intro bb
        rw [SourceMapBuilder.set_source_contents, if_pos rfl]
      have hgoal5 : b.source_contents.length
          = (if true = true then (firstOccs (obsSrcs (P ++ [o]))).length else 0) := by
        rw [if_pos rfl, hSeq, hclen, if_pos rfl]
      refine ⟨?_, ?_, ?_, ?_, ?_, ?_⟩
      · split
        · rw [hres]; exact hfile
        · exact hfile
      · split
        · rw [hres]
        · rfl
      · split
        · rw [hres]
        · rfl
      · split
        · rw [hres]; exact htokens_new.symm
        · exact htokens_new.symm
      · split
        · rw [hres]; exact hgoal5
        · exact hgoal5
      · intro j s hjs hw
        rw [hSeq] at hjs
        have hbucket : srcBucket (P ++ [o]) s = srcBucket P s :=
          srcBucket_snoc_none P o hosrc s
        rw [hbucket]
        have hgoal := hcget j s hjs hw
        split
        · rw [hres]; exact hgoal
        · exact hgoal
    · -- token with source s
      rw [hosrc] at htokens_new
      have hmemS' : s ∈ firstOccs (obsSrcs (P ++ [o])) := by
        rw [mem_firstOccs, obsSrcs_snoc, hosrc]
        simp
      have hid : optIdx (firstOccs (obsSrcs (P ++ [o]))) (some s)
          = (firstOccs (obsSrcs (P ++ [o]))).findIdx (· = s) := rfl
      rw [hid]
      have hj0lt : (firstOccs (obsSrcs (P ++ [o]))).findIdx (· = s)
          < (firstOccs (obsSrcs (P ++ [o]))).length := findIdx_lt_of_mem hmemS'
      have hS'len : (firstOccs (obsSrcs (P ++ [o]))).length ≤ P.length + 1 := by
        have h1 := firstOccs_length (obsSrcs (P ++ [o]))
        have h2 := obsSrcs_length_le (P ++ [o])
        have h3 : (P ++ [o]).length = P.length + 1 := by simp
        omega
      have hj0sent : (firstOccs (obsSrcs (P ++ [o]))).findIdx (· = s) ≠ SENTINEL := by
        omega
      have hS'get : (firstOccs (obsSrcs (P ++ [o])))[(firstOccs (obsSrcs (P ++ [o]))).findIdx (· = s)]? = some s :=
        getElem?_findIdx hmemS'
      by_cases hmemS : s ∈ firstOccs (obsSrcs P)
      · -- s already interned
        have hSeq : firstOccs (obsSrcs (P ++ [o])) = firstOccs (obsSrcs P) := by
          rw [obsSrcs_snoc, hosrc]
          simp only [Option.toList]
          rw [firstOccs_snoc, if_pos hmemS]
        have hbget := hcget ((firstOccs (obsSrcs (P ++ [o]))).findIdx (· = s)) s
          (by rw [← hSeq]; exact hS'get) rfl
        by_cases hb : srcBucket P s = none
        · -- the bucket is still empty: the guard fires and records
          have hhas : SourceMapBuilder.has_source_contents
              { file := b.file,
                tokens := b.tokens ++ [⟨o.dst_line, o.dst_col, o.src_line, o.src_col,
                  (firstOccs (obsSrcs (P ++ [o]))).findIdx (· = s),
                  optIdx (firstOccs (obsNames wn (P ++ [o]))) (effName wn o)⟩],
                names := firstOccs (obsNames wn (P ++ [o])),
                sources := firstOccs (obsSrcs (P ++ [o])),
                source_contents := b.source_contents }
              ((firstOccs (obsSrcs (P ++ [o]))).findIdx (· = s)) = false := by
            rw [SourceMapBuilder.has_source_contents]
            simp only
            rw [hbget, hb]
            rfl
          rw [if_pos ⟨Or.inr hj0sent, rfl, hhas⟩]
          rw [SourceMapBuilder.set_source_contents, if_neg hj0sent]
          simp only
          have hnores : ¬ ((firstOccs (obsSrcs (P ++ [o]))).length
              > b.source_contents.length) := by
            rw [hclen, if_pos rfl, hSeq]
            omega
          rw [if_neg hnores]
          refine ⟨hfile, rfl, rfl, htokens_new.symm, ?_, ?_⟩
          · rw [List.length_set, hclen, if_pos rfl, if_pos rfl, hSeq]
          · intro j s' hjs' hw
            rw [List.getElem?_set]
            by_cases hji : (firstOccs (obsSrcs (P ++ [o]))).findIdx (· = s) = j
            · rw [if_pos hji]
              have hlt : (firstOccs (obsSrcs (P ++ [o]))).findIdx (· = s)
                  < b.source_contents.length := by
                rw [hclen, if_pos rfl, ← hSeq]
                exact hj0lt
              rw [if_pos hlt]
              have hs's : s' = s := by
                rw [← hji] at hjs'
                rw [hS'get] at hjs'
                exact (Option.some.inj hjs').symm
              subst hs's
              rw [srcBucket_snoc_same P o s' hosrc, hb]
              rfl
            · rw [if_neg hji]
              have hs'ne : s' ≠ s := by
                intro he
                subst he
                apply hji
                have hnd := firstOccs_nodup (obsSrcs (P ++ [o]))
                obtain ⟨hjl, hje⟩ := List.getElem?_eq_some.mp hjs'
                obtain ⟨hkl, hke⟩ := List.getElem?_eq_some.mp hS'get
                exact (hnd.getElem_inj_iff).mp (by rw [hje, hke])
              rw [srcBucket_snoc_other P o s' (by rw [hosrc]; simpa using (Ne.symm hs'ne))]
              exact hcget j s' (by rw [← hSeq]; exact hjs') hw
        · -- the bucket is already filled: the guard does not fire
          obtain ⟨x, hx⟩ := Option.ne_none_iff_exists'.mp hb
          have hhas : SourceMapBuilder.has_source_contents
              { file := b.file,
                tokens := b.tokens ++ [⟨o.dst_line, o.dst_col, o.src_line, o.src_col,
                  (firstOccs (obsSrcs (P ++ [o]))).findIdx (· = s),
                  optIdx (firstOccs (obsNames wn (P ++ [o]))) (effName wn o)⟩],
                names := firstOccs (obsNames wn (P ++ [o])),
                sources := firstOccs (obsSrcs (P ++ [o])),
                source_contents := b.source_contents }
              ((firstOccs (obsSrcs (P ++ [o]))).findIdx (· = s)) = true := by
            rw [SourceMapBuilder.has_source_contents]
            simp only
            rw [hbget, hx]
            rfl
          rw [if_neg (by rw [hhas]; simp)]
          refine ⟨hfile, rfl, rfl, htokens_new.symm, ?_, ?_⟩
          · rw [hclen, if_pos rfl, if_pos rfl, hSeq]
          · intro j s' hjs' hw
            by_cases hs's : s' = s
            · subst hs's
              rw [srcBucket_snoc_same P o s' hosrc, hx]
              have hxx : srcBucket P s' = some x := hx
              rw [show (some x).or o.cont = some x from rfl, ← hxx]
              exact hcget j s' (by rw [← hSeq]; exact hjs') hw
            · rw [srcBucket_snoc_other P o s' (by rw [hosrc]; simpa using (Ne.symm hs's))]
              exact hcget j s' (by rw [← hSeq]; exact hjs') hw
      · -- a brand-new source: appended and its bucket freshly recorded
        have hSeq : firstOccs (obsSrcs (P ++ [o]))
            = firstOccs (obsSrcs P) ++ [s] := by
          rw [obsSrcs_snoc, hosrc]
          simp only [Option.toList]
          rw [firstOccs_snoc, if_neg hmemS]
        have hj0 : (firstOccs (obsSrcs (P ++ [o]))).findIdx (· = s)
            = (firstOccs (obsSrcs P)).length := by
          rw [hSeq]
          exact findIdx_append_self hmemS
        have hnotP : s ∉ obsSrcs P := fun h => hmemS ((mem_firstOccs s _).mpr h)
        have hhas : SourceMapBuilder.has_source_contents
            { file := b.file,
              tokens := b.tokens ++ [⟨o.dst_line, o.dst_col, o.src_line, o.src_col,
                (firstOccs (obsSrcs (P ++ [o]))).findIdx (· = s),
                optIdx (firstOccs (obsNames wn (P ++ [o]))) (effName wn o)⟩],
              names := firstOccs (obsNames wn (P ++ [o])),
              sources := firstOccs (obsSrcs (P ++ [o])),
              source_contents := b.source_contents }
            ((firstOccs (obsSrcs (P ++ [o]))).findIdx (· = s)) = false := by
          rw [SourceMapBuilder.has_source_contents]
          simp only
          rw [hj0]
          have hnone : b.source_contents[(firstOccs (obsSrcs P)).length]? = none := by
            apply List.getElem?_eq_none
            rw [hclen, if_pos rfl]
          rw [hnone]
          rfl
        rw [if_pos ⟨Or.inr hj0sent, rfl, hhas⟩]
        rw [SourceMapBuilder.set_source_contents, if_neg hj0sent]
        simp only
        have hgrow : (firstOccs (obsSrcs (P ++ [o]))).length > b.source_contents.length := by
          rw [hclen, if_pos rfl, hSeq]
          simp
        rw [if_pos hgrow]
        have hreplen : (firstOccs (obsSrcs (P ++ [o]))).length
            - b.source_contents.length = 1 := by
          rw [hclen, if_pos rfl, hSeq]
          simp
        rw [hreplen]
        refine ⟨hfile, rfl, rfl, htokens_new.symm, ?_, ?_⟩
        · rw [List.length_set, List.length_append, List.length_replicate,
            hclen, if_pos rfl, if_pos rfl, hSeq]
          simp
        · intro j s' hjs' hw
          rw [List.getElem?_set]
          by_cases hji : (firstOccs (obsSrcs (P ++ [o]))).findIdx (· = s) = j
          · rw [if_pos hji]
            have hlt : (firstOccs (obsSrcs (P ++ [o]))).findIdx (· = s)
                < (b.source_contents ++ List.replicate 1 none).length := by
              rw [List.length_append, List.length_replicate, hclen, if_pos rfl, hj0]
              omega
            rw [if_pos hlt]
            have hs's : s' = s := by
              rw [← hji, hS'get] at hjs'
              exact (Option.some.inj hjs').symm
            subst hs's
            rw [srcBucket_snoc_same P o s' hosrc, srcBucket_not_mem P s' hnotP]
            rfl
          · rw [if_neg hji]
            have hjlt : j < (firstOccs (obsSrcs P)).length := by
              obtain ⟨hjl, _⟩ := List.getElem?_eq_some.mp hjs'
              rw [hSeq, List.length_append, List.length_singleton] at hjl
              rw [hj0] at hji
              omega
            have hjsP : (firstOccs (obsSrcs P))[j]? = some s' := by
              rw [hSeq] at hjs'
              rwa [List.getElem?_append_left hjlt] at hjs'
            have hs'mem : s' ∈ firstOccs (obsSrcs P) := by
              obtain ⟨hjl, hje⟩ := List.getElem?_eq_some.mp hjsP
              exact hje ▸ List.getElem_mem hjl
            have hs'ne : s' ≠ s := fun he => hmemS (he ▸ hs'mem)
            rw [srcBucket_snoc_other P o s' (by rw [hosrc]; simpa using (Ne.symm hs'ne))]
            rw [List.getElem?_append_left (by rw [hclen, if_pos rfl]; exact hjlt)]
            exact hcget j s' hjsP hw

/-- An empty builder satisfies the invariant for the empty stream. -/
theorem builderInv_new (wn wsc : Bool) (file : Option String) :
    builderInv wn wsc file [] (SourceMapBuilder.new file) := by
  refine ⟨rfl, rfl, rfl, rfl, by simp [SourceMapBuilder.new, obsSrcs, firstOccs, firstOccsFrom], ?_⟩
  intro j s hjs _
  simp [obsSrcs, firstOccs, firstOccsFrom] at hjs

/-- Ingesting a stream suffix preserves the invariant. -/
theorem ingest_inv_aux (wn gs wsc : Bool) (file : Option String) :
    ∀ (Q P : List ObsTok) (b : SourceMapBuilder),
      P.length + Q.length < SENTINEL →
      builderInv wn wsc file P b →
      builderInv wn wsc file (P ++ Q) (ingest wn gs wsc b Q) := by
  intro Q
  induction Q with
  | nil =>
    intro P b _ h
    simpa [ingest] using h
  | cons o Q ih =>
    intro P b hlen hinv
    have h1 : builderInv wn wsc file (P ++ [o]) (ingestStep wn gs wsc b o) :=
      ingest_step_inv wn gs wsc file P o b (by simp at hlen ⊢; omega) hinv
    have h2 := ih (P ++ [o]) (ingestStep wn gs wsc b o)
      (by simp at hlen ⊢; omega) h1
    rw [ingest, List.foldl_cons]
    rw [List.append_assoc, List.singleton_append] at h2
    exact h2

/-- The invariant for a full run from a fresh builder. -/
theorem ingest_inv (wn gs wsc : Bool) (file : Option String) (L : List ObsTok)
    (hL : L.length < SENTINEL) :
    builderInv wn wsc file L (ingest wn gs wsc (SourceMapBuilder.new file) L) := by
  have h := ingest_inv_aux wn gs wsc file L [] (SourceMapBuilder.new file)
    (by simpa using hL) (builderInv_new wn wsc file)
  simpa using h

/-- Reduction of the literal disjunction in the `rewrite` guard. -/
theorem guard_or_true (p : Prop) : ((true = false ∨ p)) ↔ p := by simp

/-- The `rewrite` loop body is one ingestion step on the observable token. -/
theorem rewriteStep_eq (m : SourceMap) (options : RewriteOptions)
    (b : SourceMapBuilder) (t : RawToken) (i : Nat) :
    rewriteStep m options b ⟨t, m, i⟩
      = ingestStep options.with_names true options.with_source_contents b
          (tokenObs m t) := by
  rw [rewriteStep, ingestStep]
  simp only [guard_or_true]
  rfl

/-- The `rewrite` token loop is an ingestion run over the observable
stream. -/
theorem rewrite_fold_eq (m : SourceMap) (options : RewriteOptions) :
    ∀ (l : List RawToken) (n : Nat) (b : SourceMapBuilder),
      (List.enumFrom n l).foldl (fun b p => rewriteStep m options b ⟨p.2, m, p.1⟩) b
        = ingest options.with_names true options.with_source_contents b
            (l.map (tokenObs m)) := by
  intro l
  induction l with
  | nil => intro n b; rfl
  | cons t rest ih =>
    intro n b
    rw [List.enumFrom_cons, List.foldl_cons, List.map_cons, ingest, List.foldl_cons]
    rw [rewriteStep_eq]
    exact ih (n + 1) _

/-- The `rewrite` builder in ingestion form. -/
theorem rewrite_builder_eq (m : SourceMap) (options : RewriteOptions) :
    m.tokenViews.foldl (rewriteStep m options) (SourceMapBuilder.new m.get_file)
      = ingest options.with_names true options.with_source_contents
          (SourceMapBuilder.new m.get_file) (m.tokens.map (tokenObs m)) := by
  rw [SourceMap.tokenViews, List.foldl_map]
  exact rewrite_fold_eq m options m.tokens 0 _

/-- The observable form a token of the rewritten map presents: the name is
filtered by `with_names`, and the contents are the bucket of its source. -/
def postObs (wn wsc : Bool) (L : List ObsTok) (o : ObsTok) : ObsTok :=
  ⟨o.dst_line, o.dst_col, o.src_line, o.src_col, o.src, effName wn o,
   match o.src with
   | none => none
   | some s => if wsc then srcBucket L s else none⟩

/-- `into_sourcemap` copies the builder's fields into the map. -/
theorem into_sourcemap_fields (b : SourceMapBuilder) :
    b.into_sourcemap.file = b.file ∧
    b.into_sourcemap.tokens = b.tokens ∧
    b.into_sourcemap.names = b.names ∧
    b.into_sourcemap.sources = b.sources ∧
    b.into_sourcemap.sources_content = b.source_contents :=
  ⟨rfl, rfl, rfl, rfl, rfl⟩

/-- An emitted token of a built map reads back as the post-observable form
of its stream token. -/
theorem tokenObs_tokOf (wn wsc : Bool) (L : List ObsTok) (hL : L.length < SENTINEL)
    (m1 : SourceMap)
    (hsrc : m1.sources = firstOccs (obsSrcs L))
    (hnm : m1.names = firstOccs (obsNames wn L))
    (hclen : m1.sources_content.length
      = (if wsc = true then (firstOccs (obsSrcs L)).length else 0))
    (hcont : ∀ (j : Nat) (s : String), (firstOccs (obsSrcs L))[j]? = some s →
      wsc = true → m1.sources_content[j]? = some (srcBucket L s))
    (o : ObsTok) (ho : o ∈ L) :
    tokenObs m1 (tokOf wn (firstOccs (obsSrcs L)) (firstOccs (obsNames wn L)) o)
      = postObs wn wsc L o := by
  have hSlen : (firstOccs (obsSrcs L)).length ≤ L.length := by
    have h1 := firstOccs_length (obsSrcs L)
    have h2 := obsSrcs_length_le L
    omega
  have hNlen : (firstOccs (obsNames wn L)).length ≤ L.length := by
    have h1 := firstOccs_length (obsNames wn L)
    have h2 : (obsNames wn L).length ≤ L.length := List.length_filterMap_le _ L
    omega
  have hclen' : m1.sources_content.length ≤ L.length := by
    rw [hclen]
    split <;> omega
  rw [tokenObs, tokOf, postObs]
  simp only
  have hsrc_comp : (if optIdx (firstOccs (obsSrcs L)) o.src = SENTINEL then none
      else m1.sources[optIdx (firstOccs (obsSrcs L)) o.src]?) = o.src := by
    cases hos : o.src with
    | none => rw [optIdx, if_pos rfl]
    | some s =>
      have hmem : s ∈ firstOccs (obsSrcs L) := by
        rw [mem_firstOccs]
        exact List.mem_filterMap.mpr ⟨o, ho, by rw [hos]⟩
      have hlt := findIdx_lt_of_mem hmem
      rw [optIdx]
      rw [if_neg (by omega), hsrc]
      exact getElem?_findIdx hmem
  have hname_comp : (if optIdx (firstOccs (obsNames wn L)) (effName wn o) = SENTINEL
      then none else m1.names[optIdx (firstOccs (obsNames wn L)) (effName wn o)]?)
      = effName wn o := by
    cases hon : effName wn o with
    | none => rw [optIdx, if_pos rfl]
    | some s =>
      have hmem : s ∈ firstOccs (obsNames wn L) := by
        rw [mem_firstOccs]
        exact List.mem_filterMap.mpr ⟨o, ho, by rw [hon]⟩
      have hlt := findIdx_lt_of_mem hmem
      rw [optIdx]
      rw [if_neg (by omega), hnm]
      exact getElem?_findIdx hmem
  have hcont_comp : m1.get_source_contents (optIdx (firstOccs (obsSrcs L)) o.src)
      = (match o.src with
         | none => none
         | some s => if wsc = true then srcBucket L s else none) := by
    cases hos : o.src with
    | none =>
      rw [optIdx, SourceMap.get_source_contents]
      have : m1.sources_content[SENTINEL]? = none :=
        List.getElem?_eq_none (by omega)
      rw [this]
      rfl
    | some s =>
      have hmem : s ∈ firstOccs (obsSrcs L) := by
        rw [mem_firstOccs]
        exact List.mem_filterMap.mpr ⟨o, ho, by rw [hos]⟩
      have hlt := findIdx_lt_of_mem hmem
      rw [optIdx, SourceMap.get_source_contents]
      cases hwsc : wsc with
      | false =>
        have hlen0 : m1.sources_content.length = 0 := by
          rw [hclen, hwsc]
          simp
        have : m1.sources_content[(firstOccs (obsSrcs L)).findIdx (· = s)]? = none :=
          List.getElem?_eq_none (by omega)
        rw [this]
        rfl
      | true =>
        have := hcont ((firstOccs (obsSrcs L)).findIdx (· = s)) s
          (getElem?_findIdx hmem) hwsc
        rw [this]
        rfl
  rw [hsrc_comp, hname_comp, hcont_comp]

/-- The sources of the post-observable stream. -/
theorem postObs_srcs (wn wsc : Bool) (L : List ObsTok) :
    obsSrcs (L.map (postObs wn wsc L)) = obsSrcs L := by
  rw [obsSrcs, List.filterMap_map]
  rfl

/-- The forwarded names of the post-observable stream. -/
theorem postObs_names (wn wsc : Bool) (L : List ObsTok) :
    obsNames wn (L.map (postObs wn wsc L)) = obsNames wn L := by
  rw [obsNames, List.filterMap_map]
  refine List.filterMap_congr ?_
  intro o _
  cases wn <;> rfl

/-- Re-emitting a post-observable token interns identically. -/
theorem postObs_tokOf (wn wsc : Bool) (L : List ObsTok) (S N : List String)
    (o : ObsTok) : tokOf wn S N (postObs wn wsc L o) = tokOf wn S N o := by
  rw [tokOf, tokOf]
  cases wn <;> rfl

/-- `findSome?` over a list on which the function is constant. -/
theorem findSome?_const {α β : Type} (f : α → Option β) (c : Option β) :
    ∀ (l : List α), (∀ o ∈ l, f o = c) → l ≠ [] → l.findSome? f = c := by
  intro l
  induction l with
  | nil => intro _ h; exact absurd rfl h
  | cons a rest ih =>
    intro hall _
    have ha := hall a (List.mem_cons_self a rest)
    rw [List.findSome?_cons, ha]
    cases c with
    | some x => rfl
    | none =>
      show List.findSome? f rest = none
      cases hrest : rest with
      | nil => rfl
      | cons b tl =>
        rw [← hrest]
        exact ih (fun o ho => hall o (List.mem_cons_of_mem a ho))
          (by rw [hrest]; exact List.cons_ne_nil b tl)

/-- Buckets of the post-observable stream agree with the original buckets
(when contents are kept). -/
theorem postObs_bucket (wn : Bool) (L : List ObsTok) (s : String) :
    srcBucket (L.map (postObs wn true L)) s = srcBucket L s := by
  rw [srcBucket, List.filter_map]
  have hp : (fun o : ObsTok => decide (o.src = some s)) ∘ postObs wn true L
      = fun o : ObsTok => decide (o.src = some s) := rfl
  rw [hp]
  rw [List.findSome?_map]
  by_cases hnil : L.filter (fun o => o.src = some s) = []
  · rw [hnil, srcBucket, hnil]
    rfl
  · refine findSome?_const _ (srcBucket L s) _ ?_ hnil
    intro o ho
    have hos : o.src = some s := by simpa using (List.mem_filter.mp ho).2
    simp [Function.comp, postObs, hos]

/-- Two builders with equal fields are equal. -/
theorem builder_ext (b1 b2 : SourceMapBuilder) (h1 : b1.file = b2.file)
    (h2 : b1.tokens = b2.tokens) (h3 : b1.names = b2.names)
    (h4 : b1.sources = b2.sources)
    (h5 : b1.source_contents = b2.source_contents) : b1 = b2 := by
  cases b1
  cases b2
  simp only at h1 h2 h3 h4 h5
  rw [h1, h2, h3, h4, h5]

/-- The invariant determines the builder completely: its contents list is the
bucket of each interned source, in table order. -/
theorem builderInv_det (wn wsc : Bool) (file : Option String) (P : List ObsTok)
    (b : SourceMapBuilder) (h : builderInv wn wsc file P b) :
    b = { file := file,
          tokens := P.map (tokOf wn (firstOccs (obsSrcs P)) (firstOccs (obsNames wn P))),
          names := firstOccs (obsNames wn P),
          sources := firstOccs (obsSrcs P),
          source_contents :=
            if wsc then (firstOccs (obsSrcs P)).map (srcBucket P) else [] } := by
  obtain ⟨hfile, hsrcs, hnames, htoks, hclen, hcget⟩ := h
  have hsc : b.source_contents
      = (if wsc then (firstOccs (obsSrcs P)).map (srcBucket P) else []) := by
    cases hwsc : wsc with
    | false =>
      rw [hwsc] at hclen
      simp at hclen
      show b.source_contents = []
      exact hclen
    | true =>
      rw [hwsc] at hclen
      simp at hclen
      show b.source_contents = (firstOccs (obsSrcs P)).map (srcBucket P)
      apply List.ext_getElem?
      intro j
      by_cases hj : j < (firstOccs (obsSrcs P)).length
      · have hg : (firstOccs (obsSrcs P))[j]? = some ((firstOccs (obsSrcs P))[j]) :=
          List.getElem?_eq_getElem hj
        rw [hcget j _ hg hwsc, List.getElem?_map, hg]
        rfl
      · rw [List.getElem?_eq_none (by omega),
          List.getElem?_eq_none (by rw [List.length_map]; omega)]
  exact builder_ext _ _ hfile htoks hnames hsrcs hsc

/-- Feeding the pipeline its own output stream rebuilds the same builder. -/
theorem ingest_post_eq (wn gs wsc : Bool) (file : Option String) (L : List ObsTok)
    (hL : L.length < SENTINEL) :
    ingest wn gs wsc (SourceMapBuilder.new file) (L.map (postObs wn wsc L))
      = ingest wn gs wsc (SourceMapBuilder.new file) L := by
  have hlen' : (L.map (postObs wn wsc L)).length < SENTINEL := by simpa using hL
  rw [builderInv_det wn wsc file _ _ (ingest_inv wn gs wsc file _ hlen'),
      builderInv_det wn wsc file _ _ (ingest_inv wn gs wsc file L hL)]
  have hS := postObs_srcs wn wsc L
  have hN := postObs_names wn wsc L
  refine builder_ext _ _ rfl ?_ ?_ ?_ ?_
  · show (L.map (postObs wn wsc L)).map _ = L.map _
    rw [hS, hN, List.map_map]
    refine List.map_congr_left ?_
    intro o _
    exact postObs_tokOf wn wsc L _ _ o
  · show firstOccs (obsNames wn (L.map (postObs wn wsc L))) = _
    rw [hN]
  · show firstOccs (obsSrcs (L.map (postObs wn wsc L))) = _
    rw [hS]
  · cases hwsc : wsc with
    | false => rfl
    | true =>
      show (firstOccs (obsSrcs (L.map (postObs wn true L)))).map _
          = (firstOccs (obsSrcs L)).map _
      rw [postObs_srcs wn true L]
      refine List.map_congr_left ?_
      intro s _
      exact postObs_bucket wn L s

/-- The tokens of a built map read back as the post-observable stream. -/
theorem obs_of_built (wn gs wsc : Bool) (file : Option String) (L : List ObsTok)
    (hL : L.length < SENTINEL) :
    ((ingest wn gs wsc (SourceMapBuilder.new file) L).into_sourcemap).tokens.map
        (tokenObs ((ingest wn gs wsc (SourceMapBuilder.new file) L).into_sourcemap))
      = L.map (postObs wn wsc L) := by
  obtain ⟨hfile, hsrcs, hnames, htoks, hclen, hcget⟩ := ingest_inv wn gs wsc file L hL
  rw [(into_sourcemap_fields _).2.1, htoks, List.map_map]
  refine List.map_congr_left ?_
  intro o ho
  refine tokenObs_tokOf wn wsc L hL _ ?_ ?_ ?_ ?_ o ho
  · rw [(into_sourcemap_fields _).2.2.2.1, hsrcs]
  · rw [(into_sourcemap_fields _).2.2.1, hnames]
  · rw [(into_sourcemap_fields _).2.2.2.2]
    exact hclen
  · intro j s hg hw
    rw [(into_sourcemap_fields _).2.2.2.2]
    exact hcget j s hg hw

/-- With an empty `strip_prefixes` list, `rewrite` is the builder run followed
by finalization. -/
theorem rewrite_no_strip (m : SourceMap) (opt : RewriteOptions)
    (hstrip : opt.strip_prefixes = []) :
    m.rewrite opt = Except.ok ((ingest opt.with_names true opt.with_source_contents
      (SourceMapBuilder.new m.get_file)
      (m.tokens.map (tokenObs m))).into_sourcemap) := by
  rw [SourceMap.rewrite]
  simp only [hstrip, List.filter_nil, List.not_mem_nil, if_false, List.nil_append,
    ne_eq, not_true_eq_false, ite_false]
  rw [rewrite_builder_eq]

/-- A map whose single source carries the strippable leading part twice. -/
def c6Map : SourceMap :=
  SourceMap.new (some "min.js") [⟨0, 0, 0, 0, 0, SENTINEL⟩] [] ["a/a/x.js"] none

/-- Rewrite options with a literal strip list. -/
def c6Opt : RewriteOptions := { strip_prefixes := ["a/"] }

/-- The result of one rewrite of `c6Map`. -/
def c6Once : SourceMap :=
  match c6Map.rewrite c6Opt with
  | Except.ok m => m
  | Except.error _ => c6Map

/-- The result of a second rewrite. -/
def c6Twice : SourceMap :=
  match c6Once.rewrite c6Opt with
  | Except.ok m => m
  | Except.error _ => c6Once

/-- C6: counterexample to the claim as stated.  With
`load_local_source_contents = false` but a non-empty `strip_prefixes` list,
`rewrite` is not idempotent: each run strips one more leading `"a/"` from the
source `"a/a/x.js"`, so the second run's output differs from the first's. -/
theorem claim6_counterexample :
    c6Map.rewrite c6Opt = Except.ok c6Once ∧
    c6Once.rewrite c6Opt = Except.ok c6Twice ∧
    c6Once.get_source 0 = some "a/x.js" ∧
    c6Twice.get_source 0 = some "x.js" ∧
    c6Twice ≠ c6Once :=
  ⟨rfl, rfl, by decide, by decide, by decide⟩

/-- C6 (amended): for every source map and rewrite options with
`load_local_source_contents = false` and an empty `strip_prefixes` list,
rewriting twice equals rewriting once: the first rewrite succeeds with some
map `m1`, and rewriting `m1` under the same options returns `m1` itself
(field-wise equality of the whole map).  The size bound keeps the interned
ids clear of the `!0` sentinel. -/
theorem claim6_amended_rewrite (m : SourceMap) (opt : RewriteOptions)
    (_hload : opt.load_local_source_contents = false)
    (hstrip : opt.strip_prefixes = [])
    (hsize : m.tokens.length < SENTINEL) :
    ∃ m1, m.rewrite opt = Except.ok m1 ∧ m1.rewrite opt = Except.ok m1 := by
  have hlen : (m.tokens.map (tokenObs m)).length < SENTINEL := by simpa using hsize
  refine ⟨_, rewrite_no_strip m opt hstrip, ?_⟩
  rw [rewrite_no_strip _ opt hstrip]
  have hfile : ((ingest opt.with_names true opt.with_source_contents
      (SourceMapBuilder.new m.get_file)
      (m.tokens.map (tokenObs m))).into_sourcemap).get_file = m.get_file := by
    rw [SourceMap.get_file, (into_sourcemap_fields _).1,
      (ingest_inv _ _ _ _ _ hlen).1]
  rw [hfile, obs_of_built _ true _ m.get_file _ hlen,
    ingest_post_eq _ true _ m.get_file _ hlen]

/-- A one-token map used to instantiate the amended C6 theorem. -/
def c6WitMap : SourceMap :=
  SourceMap.new (some "w.js") [⟨0, 0, 0, 0, 0, SENTINEL⟩] [] ["q.js"] none

/-- Default rewrite options: no stripping, no filesystem loading. -/
def c6WitOpt : RewriteOptions := {}

/-- C6 (amended), witnessed at a concrete one-token map. -/
theorem claim6_witness :
    c6WitOpt.load_local_source_contents = false ∧ c6WitOpt.strip_prefixes = [] ∧
    c6WitMap.tokens.length < SENTINEL ∧
    ∃ m1, c6WitMap.rewrite c6WitOpt = Except.ok m1 ∧
      m1.rewrite c6WitOpt = Except.ok m1 :=
  ⟨rfl, rfl, by decide, claim6_amended_rewrite c6WitMap c6WitOpt rfl rfl (by decide)⟩

/-- The generated-position shift `flatten` applies to a section's tokens
(`u32` wrapping addition of the section offset). -/
def shiftObs (oL oC : Nat) (o : ObsTok) : ObsTok :=
  ⟨(o.dst_line + oL) % U32MOD, (o.dst_col + oC) % U32MOD,
   o.src_line, o.src_col, o.src, o.name, o.cont⟩

/-- The observable token stream of a map. -/
def mapStream (m : SourceMap) : List ObsTok := m.tokens.map (tokenObs m)

/-- The observable tokens a section contributes to `flatten`: its child
stream shifted by the section offset (empty without an inline map). -/
def sectionStream (s : SourceMapSection) : List ObsTok :=
  match s.get_sourcemap with
  | none => []
  | some m => (mapStream m).map (shiftObs s.get_offset.1 s.get_offset.2)

/-- The whole observable stream `flatten` feeds through the builder. -/
def flatStream (smi : SourceMapIndex) : List ObsTok :=
  smi.sections.foldr (fun s acc => sectionStream s ++ acc) []

/-- Reduction of the literal guard of the `flatten` ingestion step. -/
theorem guard_flat (p q : Prop) : (((false = false ∨ p)) ∧ true = true ∧ q) ↔ q := by
  simp

/-- An enumerated fold whose body is one ingestion step is an ingestion run. -/
theorem foldl_enum_ingest (wn gs wsc : Bool)
    (f : SourceMapBuilder → Nat × RawToken → SourceMapBuilder) (g : RawToken → ObsTok)
    (hf : ∀ (b : SourceMapBuilder) (n : Nat) (t : RawToken),
      f b (n, t) = ingestStep wn gs wsc b (g t)) :
    ∀ (l : List RawToken) (n : Nat) (b : SourceMapBuilder),
      (List.enumFrom n l).foldl f b = ingest wn gs wsc b (l.map g) := by
  intro l
  induction l with
  | nil => intro n b; rfl
  | cons t rest ih =>
    intro n b
    rw [List.enumFrom_cons, List.foldl_cons, List.map_cons, ingest, List.foldl_cons, hf]
    exact ih (n + 1) _

/-- `flattenSectionTokens` in ingestion form. -/
theorem flattenSectionTokens_eq (m : SourceMap) (oL oC : Nat) (b : SourceMapBuilder) :
    flattenSectionTokens m oL oC b
      = ingest true false true b ((mapStream m).map (shiftObs oL oC)) := by
  rw [flattenSectionTokens, SourceMap.tokenViews, List.foldl_map, mapStream, List.map_map]
  refine foldl_enum_ingest true false true _ _ ?_ m.tokens 0 b
  intro b n t
  show _ = ingestStep true false true b (shiftObs oL oC (tokenObs m t))
  rw [ingestStep]
  exact if_congr (Iff.symm (guard_flat _ _)) rfl rfl

/-- Ingestion runs concatenate. -/
theorem ingest_append (wn gs wsc : Bool) (b : SourceMapBuilder) (L1 L2 : List ObsTok) :
    ingest wn gs wsc b (L1 ++ L2) = ingest wn gs wsc (ingest wn gs wsc b L1) L2 := by
  rw [ingest, ingest, ingest, List.foldl_append]

/-- When every section has an inline map, the `flatten` section loop is one
ingestion run over the concatenated shifted streams. -/
theorem flattenGo_ok : ∀ (sections : List SourceMapSection) (b : SourceMapBuilder),
    (∀ s ∈ sections, s.get_sourcemap ≠ none) →
    flattenGo sections b
      = Except.ok (ingest true false true b
          (sections.foldr (fun s acc => sectionStream s ++ acc) [])) := by
  intro sections
  induction sections with
  | nil => intro b _; rfl
  | cons s rest ih =>
    intro b hall
    cases hm : s.get_sourcemap with
    | none => exact absurd hm (hall s (List.mem_cons_self s rest))
    | some m =>
      simp only [flattenGo, hm]
      rw [ih _ (fun s2 hs => hall s2 (List.mem_cons_of_mem _ hs)),
        flattenSectionTokens_eq, List.foldr_cons, ingest_append]
      simp only [sectionStream, hm]

/-- A section without an inline map makes the `flatten` section loop fail
with `CannotFlatten`. -/
theorem flattenGo_err : ∀ (sections : List SourceMapSection) (b : SourceMapBuilder),
    (∃ s ∈ sections, s.get_sourcemap = none) →
    ∃ msg, flattenGo sections b = Except.error (Error.CannotFlatten msg) := by
  intro sections
  induction sections with
  | nil =>
    intro b hex
    obtain ⟨s, hs, _⟩ := hex
    exact absurd hs (List.not_mem_nil s)
  | cons s rest ih =>
    intro b hex
    cases hm : s.get_sourcemap with
    | none =>
      refine ⟨"Section has an unresolved sourcemap: " ++ (s.get_url.getD "<unknown url>"), ?_⟩
      simp only [flattenGo, hm]
    | some m =>
      obtain ⟨s2, hs2, hnone⟩ := hex
      rcases List.mem_cons.mp hs2 with rfl | hmem
      · rw [hm] at hnone
        exact Option.noConfusion hnone
      · obtain ⟨msg, hmsg⟩ := ih (flattenSectionTokens m s.get_offset.1 s.get_offset.2 b)
          ⟨s2, hmem, hnone⟩
        refine ⟨msg, ?_⟩
        simp only [flattenGo, hm]
        exact hmsg

/-- `flatten` in ingestion form, on the success side. -/
theorem flatten_ok_eq (smi : SourceMapIndex)
    (hall : ∀ s ∈ smi.sections, s.get_sourcemap ≠ none) :
    smi.flatten = Except.ok ((ingest true false true
      (SourceMapBuilder.new smi.get_file) (flatStream smi)).into_sourcemap) := by
  rw [SourceMapIndex.flatten, flattenGo_ok smi.sections _ hall]
  rfl

/-- C7 (amended): `flatten` fails with `CannotFlatten` exactly when some
section lacks an inline map; on success, the result's tokens read back, in
order, as every child token with its generated position shifted by the
section offset (wrapping `u32` addition), and the contents attached to each
token's source are the first non-absent contents among the stream's
occurrences of that source (not the contents of its first occurrence). -/
theorem claim7_amended_flatten (smi : SourceMapIndex)
    (hsize : (flatStream smi).length < SENTINEL) :
    ((∃ msg, smi.flatten = Except.error (Error.CannotFlatten msg)) ↔
      ∃ s ∈ smi.sections, s.get_sourcemap = none) ∧
    ∀ m1, smi.flatten = Except.ok m1 →
      m1.tokens.map (tokenObs m1)
        = (flatStream smi).map (postObs true true (flatStream smi)) := by
  by_cases hex : ∃ s ∈ smi.sections, s.get_sourcemap = none
  · obtain ⟨msg, hmsg⟩ := flattenGo_err smi.sections (SourceMapBuilder.new smi.get_file) hex
    have hflat : smi.flatten = Except.error (Error.CannotFlatten msg) := by
      rw [SourceMapIndex.flatten, hmsg]
    constructor
    · exact ⟨fun _ => hex, fun _ => ⟨msg, hflat⟩⟩
    · intro m1 hok
      rw [hflat] at hok
      exact Except.noConfusion hok
  · have hall : ∀ s ∈ smi.sections, s.get_sourcemap ≠ none := by
      intro s hs hn
      exact hex ⟨s, hs, hn⟩
    have hflat := flatten_ok_eq smi hall
    constructor
    · constructor
      · rintro ⟨msg, hmsg⟩
        rw [hflat] at hmsg
        exact Except.noConfusion hmsg
      · intro h
        exact absurd h hex
    · intro m1 hok
      rw [hflat] at hok
      have hm1 : m1 = (ingest true false true
          (SourceMapBuilder.new smi.get_file) (flatStream smi)).into_sourcemap := by
        injection hok with h
        exact h.symm
      rw [hm1]
      exact obs_of_built true false true smi.get_file (flatStream smi) hsize

/-- A child map whose only source `"s"` has no recorded contents. -/
def c7A : SourceMap :=
  SourceMap.new (some "a.js") [⟨0, 0, 0, 0, 0, SENTINEL⟩] [] ["s"] none

/-- A child map sharing source `"s"`, with contents `"X"` recorded. -/
def c7B : SourceMap :=
  SourceMap.new (some "b.js") [⟨0, 0, 0, 0, 0, SENTINEL⟩] [] ["s"] (some [some "X"])

/-- An indexed map whose first section sees source `"s"` without contents and
whose second section carries contents for it. -/
def smi7 : SourceMapIndex :=
  ⟨some "i.js", [⟨(0, 0), none, some c7A⟩, ⟨(1, 0), none, some c7B⟩]⟩

/-- The map `flatten` produces for `smi7`. -/
def flat7 : SourceMap :=
  match smi7.flatten with
  | Except.ok m => m
  | Except.error _ => c7A

/-- C7: counterexample to the claim as stated.  The first occurrence of the
source `"s"` (in the first section) carries no contents, yet the flattened
map records the contents `"X"` supplied by the later section — the contents
are not those carried by the first occurrence. -/
theorem claim7_counterexample :
    smi7.flatten = Except.ok flat7 ∧
    c7A.get_source_contents 0 = none ∧
    c7B.get_source_contents 0 = some "X" ∧
    flat7.get_source 0 = some "s" ∧
    flat7.get_source_contents 0 = some "X" :=
  ⟨rfl, rfl, rfl, by decide, by decide⟩

/-- C7 (amended), witnessed at the concrete two-section indexed map. -/
theorem claim7_witness :
    (flatStream smi7).length < SENTINEL ∧
    (((∃ msg, smi7.flatten = Except.error (Error.CannotFlatten msg)) ↔
       ∃ s ∈ smi7.sections, s.get_sourcemap = none) ∧
     ∀ m1, smi7.flatten = Except.ok m1 →
       m1.tokens.map (tokenObs m1)
         = (flatStream smi7).map (postObs true true (flatStream smi7))) :=
  ⟨by decide, claim7_amended_flatten smi7 (by decide)⟩
